import Mathlib

/-! scan-chassis: the chassis / VIN extraction heuristic and its request pipeline.

A shallow embedding of `src/index.js`.

* JavaScript strings are lists of UTF-16 code units (`JSString`).
* Regular-expression literals are values of `Regex`, run by a backtracking
  matcher written after the ECMAScript pattern semantics (continuation
  passing, greedy quantifiers, leftmost search, global iteration).
* `extractChassisNumber`, the multer `fileFilter` and the
  `POST /api/extract-chassis` handler are translated statement by statement.
-/

namespace ScanChassis

/-! ## Strings -/

/-- A JavaScript string, as its sequence of UTF-16 code units. -/
abbrev JSString := List Nat

/-- UTF-16 code units of one Unicode scalar value. -/
def utf16 (n : Nat) : List Nat :=
  if n < 65536 then [n]
  else [55296 + (n - 65536) / 1024, 56320 + (n - 65536) % 1024]

/-- The JavaScript string denoted by a string literal. -/
def lit (s : String) : JSString :=
  s.toList.flatMap (fun c => utf16 c.toNat)

/-- ECMAScript `WhiteSpace` and `LineTerminator` code units: the class `\s`,
which is also the set removed by `String.prototype.trim`. -/
def isWhiteSpace (c : Nat) : Bool :=
  c == 9 || c == 10 || c == 11 || c == 12 || c == 13 || c == 32 || c == 160 ||
  c == 5760 || (8192 ≤ c && c ≤ 8202) || c == 8232 || c == 8233 || c == 8239 ||
  c == 8287 || c == 12288 || c == 65279

/-- The class `\d` (also `[0-9]`). -/
def isDigit (c : Nat) : Bool := 48 ≤ c && c ≤ 57

/-- The class `[A-Z]`. -/
def isUpper (c : Nat) : Bool := 65 ≤ c && c ≤ 90

/-- The class `[a-z]`. -/
def isLower (c : Nat) : Bool := 97 ≤ c && c ≤ 122

/-- The class `[A-Z0-9]` without the `i` flag. -/
def isUpperAlnum (c : Nat) : Bool := isUpper c || isDigit c

/-- The class `[A-HJ-NPR-Z0-9]` without the `i` flag. -/
def isUpperVin (c : Nat) : Bool :=
  (65 ≤ c && c ≤ 72) || (74 ≤ c && c ≤ 78) || c == 80 || (82 ≤ c && c ≤ 90) || isDigit c

/-- The class `[\s-]`. -/
def isSpaceOrHyphen (c : Nat) : Bool := isWhiteSpace c || c == 45

/-- ECMAScript word characters (`\w`, used by `\b`) for a pattern without the
`u` flag: `[A-Za-z0-9_]`, whether or not the `i` flag is set. -/
def isWordChar (c : Nat) : Bool := isUpper c || isLower c || isDigit c || c == 95

/-- ECMAScript `Canonicalize` for a pattern with the `i` flag and without the
`u` flag, on the code units that matter here: an ASCII lower-case letter
becomes its upper-case letter. A code unit of 128 or more never canonicalizes
to an ASCII one (the rule of the standard), so for the ASCII classes of this
program it is enough to leave it unchanged. -/
def canonicalize (c : Nat) : Nat := if isLower c then c - 32 else c

/-- A character class under the `i` flag, for a class whose members are
already canonical (upper-case letters and digits). -/
def ignoreCase (p : Nat → Bool) : Nat → Bool := fun c => p (canonicalize c)

/-- The method `String.prototype.toUpperCase` on the ASCII range (the program applies it
only to matches of ASCII classes); other code units are left as they are. -/
def toUpperCase (s : JSString) : JSString := s.map canonicalize

/-- The method `String.prototype.toLowerCase`, exact on ASCII: upper-case
letters become lower-case; U+0130 becomes `i` followed by U+0307 and U+212A
becomes `k`, the only code units outside ASCII whose lower-case form contains
an ASCII letter. Any other code unit outside ASCII is left as it is, whereas
JavaScript maps the upper-case letters among them (U+00C9 to U+00E9, say) to
lower-case letters that are outside ASCII as well; the filter searches the
result for ASCII words only, so its answer is the same. -/
def toLowerCase (s : JSString) : JSString :=
  s.flatMap (fun c =>
    if isUpper c then [c + 32]
    else if c == 304 then [105, 775]
    else if c == 8490 then [107]
    else [c])

/-- The method `String.prototype.trim`. -/
def trim (s : JSString) : JSString :=
  ((s.dropWhile isWhiteSpace).reverse.dropWhile isWhiteSpace).reverse

/-- The call `String.prototype.substring(0, n)`. -/
def substring0 (s : JSString) (n : Nat) : JSString := s.take n

/-! ## Regular expressions -/

/-- The pattern syntax used by the regular-expression literals of the program. -/
inductive Regex where
  /-- the empty pattern -/
  | empty : Regex
  /-- a character class (or a single character), given by its membership test -/
  | cls (p : Nat → Bool) : Regex
  /-- the assertion `^` (no `m` flag) -/
  | bol : Regex
  /-- the assertion `$` (no `m` flag) -/
  | eol : Regex
  /-- the assertion `\b` -/
  | wordBoundary : Regex
  /-- concatenation -/
  | seq (a b : Regex) : Regex
  /-- alternation `a|b` -/
  | alt (a b : Regex) : Regex
  /-- greedy quantifier `{min,max}`; `max = none` is unbounded -/
  | rep (r : Regex) (min : Nat) (max : Option Nat) : Regex

/-- Matcher state: the code unit just before the current position (`none` at
the start of the input) and the input from the current position on. -/
structure State where
  prev : Option Nat
  rest : List Nat
deriving DecidableEq, Repr

/-- A matcher continuation. -/
abbrev Cont := State → Option State

/-- ECMAScript `IsWordChar` at an optional code unit (absent outside the input). -/
def isWordAt (c : Option Nat) : Bool :=
  match c with
  | none => false
  | some c => isWordChar c

/-- ECMAScript `RepeatMatcher` for a greedy quantifier, `max` iterations left. -/
def repeatMatcher (m : Cont → Cont) : Nat → Nat → Cont → Cont
  | 0, _, c, x => c x
  | max + 1, min, c, x =>
    let d : Cont := fun y =>
      if min = 0 ∧ y.rest.length = x.rest.length then none
      else repeatMatcher m max (min - 1) c y
    if min ≠ 0 then m d x
    else
      match m d x with
      | some z => some z
      | none => c x

/-- The backtracking matcher of a pattern: `matcher r c x` runs `r` at state `x`
and hands every way of matching, in priority order, to the continuation `c`
until one succeeds. An unbounded quantifier is run with `min + remaining
length` iterations, which it cannot exceed since an iteration beyond `min`
that consumes nothing is rejected. -/
def matcher : Regex → Cont → Cont
  | .empty, c, x => c x
  | .cls p, c, x =>
    match x.rest with
    | [] => none
    | ch :: cs => if p ch then c ⟨some ch, cs⟩ else none
  | .bol, c, x => if x.prev.isNone then c x else none
  | .eol, c, x => if x.rest.isEmpty then c x else none
  | .wordBoundary, c, x =>
    if isWordAt x.prev != isWordAt x.rest.head? then c x else none
  | .seq a b, c, x => matcher a (matcher b c) x
  | .alt a b, c, x =>
    match matcher a c x with
    | some z => some z
    | none => matcher b c x
  | .rep r min max, c, x =>
    repeatMatcher (matcher r) (max.getD (min + x.rest.length)) min c x

/-- A successful match of a search. -/
structure Match where
  /-- the input skipped before the match, from where the search started -/
  before : List Nat
  /-- the matched substring -/
  text : List Nat
  /-- the state at the end of the match -/
  after : State
deriving DecidableEq, Repr

/-- One attempt of the pattern at the current position. -/
def matchAt (r : Regex) (prev : Option Nat) (rest : List Nat) : Option Match :=
  match matcher r some ⟨prev, rest⟩ with
  | some e => some ⟨[], rest.take (rest.length - e.rest.length), e⟩
  | none => none

/-- The operation `RegExpBuiltinExec` from a given position: try the pattern at the current
position, then one code unit further, up to and including the end. -/
def exec (r : Regex) : Option Nat → List Nat → Option Match
  | prev, [] => matchAt r prev []
  | prev, ch :: cs =>
    match matchAt r prev (ch :: cs) with
    | some mt => some mt
    | none =>
      match exec r (some ch) cs with
      | some mt => some { mt with before := ch :: mt.before }
      | none => none

/-- The method `RegExp.prototype.test` for a pattern without the `g` flag. -/
def test (r : Regex) (s : JSString) : Bool := (exec r none s).isSome

/-- The method `String.prototype.match` for a pattern without the `g` flag: the matched
substring `match[0]` of the leftmost match. -/
def matchFirst (r : Regex) (s : JSString) : Option JSString :=
  (exec r none s).map (fun mt => mt.text)

/-- The loop of `String.prototype.match` for a pattern with the `g` flag. -/
def matchAllFrom (r : Regex) : Nat → Option Nat → List Nat → List JSString
  | 0, _, _ => []
  | fuel + 1, prev, rest =>
    match exec r prev rest with
    | none => []
    | some mt =>
      mt.text ::
        (if mt.text.isEmpty then
          match mt.after.rest with
          | [] => []
          | ch :: cs => matchAllFrom r fuel (some ch) cs
        else matchAllFrom r fuel mt.after.prev mt.after.rest)

/-- The method `String.prototype.match` for a pattern with the `g` flag, with `|| []`:
all matches left to right. Every round moves at least one code unit on, so
`length + 1` rounds are never used up. -/
def matchAll (r : Regex) (s : JSString) : List JSString :=
  matchAllFrom r (s.length + 1) none s

/-- The loop of `String.prototype.replace` for a pattern with the `g` flag and
a replacement string without `$`. -/
def replaceAllFrom (r : Regex) (by_ : JSString) : Nat → Option Nat → List Nat → JSString
  | 0, _, rest => rest
  | fuel + 1, prev, rest =>
    match exec r prev rest with
    | none => rest
    | some mt =>
      mt.before ++ by_ ++
        (if mt.text.isEmpty then
          match mt.after.rest with
          | [] => []
          | ch :: cs => ch :: replaceAllFrom r by_ fuel (some ch) cs
        else replaceAllFrom r by_ fuel mt.after.prev mt.after.rest)

/-- The method `String.prototype.replace` for a pattern with the `g` flag. -/
def replaceAll (r : Regex) (by_ : JSString) (s : JSString) : JSString :=
  replaceAllFrom r by_ (s.length + 1) none s

/-! ## The regular-expression literals of `extractChassisNumber` -/

/-- The pattern `/\s+/g`. -/
def reSpaces : Regex := .rep (.cls isWhiteSpace) 1 none

/-- The pattern `/\b[A-HJ-NPR-Z0-9]{17}\b/i`. -/
def reVin : Regex :=
  .seq .wordBoundary (.seq (.rep (.cls (ignoreCase isUpperVin)) 17 (some 17)) .wordBoundary)

/-- The pattern `/([A-Z0-9]{2,4}[\s-]?){3,6}[A-Z0-9]{2,4}/i`. -/
def reSpaced : Regex :=
  .seq
    (.rep
      (.seq (.rep (.cls (ignoreCase isUpperAlnum)) 2 (some 4))
            (.rep (.cls isSpaceOrHyphen) 0 (some 1)))
      3 (some 6))
    (.rep (.cls (ignoreCase isUpperAlnum)) 2 (some 4))

/-- The pattern `/[\s-]/g`. -/
def reSeparator : Regex := .cls isSpaceOrHyphen

/-- The pattern `/\b[A-Z0-9]{8,17}\b/gi`. -/
def reGeneral : Regex :=
  .seq .wordBoundary (.seq (.rep (.cls (ignoreCase isUpperAlnum)) 8 (some 17)) .wordBoundary)

/-- The pattern `/^\d+$/`. -/
def reAllDigits : Regex := .seq .bol (.seq (.rep (.cls isDigit) 1 none) .eol)

/-- The pattern `/[A-Z]/`. -/
def reLetter : Regex := .cls isUpper

/-- The pattern `/^\d{8}$/`. -/
def reEightDigits : Regex := .seq .bol (.seq (.rep (.cls isDigit) 8 (some 8)) .eol)

/-! ## `extractChassisNumber` -/

/-- The statement `const clean = text.replace(/\s+/g, " ").trim()`. -/
def cleanText (text : JSString) : JSString := trim (replaceAll reSpaces [32] text)

/-- The `for ... of generalMatches` loop: the first match that passes the three
`continue` tests, upper-cased. -/
def firstGeneral : List JSString → Option JSString
  | [] => none
  | mt :: rest =>
    let m := toUpperCase mt
    if test reAllDigits m then firstGeneral rest
    else if !test reLetter m then firstGeneral rest
    else if test reEightDigits m then firstGeneral rest
    else some m

/-- The second tier: the match of `reSpaced` with its separators removed and
upper-cased, when its length is between 8 and 17. -/
def spacedCandidate (clean : JSString) : Option JSString :=
  match matchFirst reSpaced clean with
  | some spaced =>
    let compact := toUpperCase (replaceAll reSeparator [] spaced)
    if 8 ≤ compact.length ∧ compact.length ≤ 17 then some compact else none
  | none => none

/-- The function `extractChassisNumber(text)`; `none` is `null`. -/
def extractChassisNumber (text : JSString) : Option JSString :=
  if text.isEmpty then none
  else
    let clean := cleanText text
    match matchFirst reVin clean with
    | some vin => some (toUpperCase vin)
    | none =>
      match spacedCandidate clean with
      | some compact => some compact
      | none => firstGeneral (matchAll reGeneral clean)

/-! ## The upload filter -/

/-- A single literal character of a pattern. -/
def chr (c : Nat) : Regex := .cls (fun x => x == c)

/-- A literal word of a pattern. -/
def str : List Nat → Regex
  | [] => .empty
  | [c] => chr c
  | c :: cs => .seq (chr c) (str cs)

/-- The pattern `/jpeg|jpg|png|webp|gif/` (`allowed`). -/
def allowed : Regex :=
  .alt (str (lit "jpeg")) (.alt (str (lit "jpg")) (.alt (str (lit "png"))
    (.alt (str (lit "webp")) (str (lit "gif")))))

/-- The local variables of the loop of Node's `path.posix.extname`. -/
structure ExtState where
  startDot : Int
  startPart : Int
  endPos : Int
  matchedSlash : Bool
  preDotState : Int

/-- The loop `for (let i = path.length - 1; i >= 0; --i)` of Node's
`path.posix.extname`; the first argument is `i + 1`. -/
def extnameLoop (path : JSString) : Nat → ExtState → ExtState
  | 0, st => st
  | i + 1, st =>
    let code := path.getD i 0
    if code = 47 then
      if !st.matchedSlash then { st with startPart := i + 1 }
      else extnameLoop path i st
    else
      let st1 := if st.endPos = -1 then { st with matchedSlash := false, endPos := i + 1 } else st
      let st2 :=
        if code = 46 then
          if st1.startDot = -1 then { st1 with startDot := i }
          else if st1.preDotState ≠ 1 then { st1 with preDotState := 1 }
          else st1
        else if st1.startDot ≠ -1 then { st1 with preDotState := -1 }
        else st1
      extnameLoop path i st2

/-- Node's library function `path.extname` (POSIX flavour), which the filter
and the handler call on the original file name. -/
def extname (path : JSString) : JSString :=
  let st := extnameLoop path path.length ⟨-1, 0, -1, true, 0⟩
  if st.startDot = -1 ∨ st.endPos = -1 ∨ st.preDotState = 0 ∨
      (st.preDotState = 1 ∧ st.startDot = st.endPos - 1 ∧ st.startDot = st.startPart + 1) then []
  else (path.take st.endPos.toNat).drop st.startDot.toNat

/-- An uploaded file as multer hands it over (memory storage). -/
structure UploadedFile where
  originalname : JSString
  mimetype : JSString
  buffer : List Nat
deriving DecidableEq, Repr

/-- What the filter passes to its callback: `accept` is `cb(null, true)`,
`reject msg` is `cb(new Error(msg))`. -/
inductive FilterResult where
  | accept : FilterResult
  | reject (message : JSString) : FilterResult
deriving DecidableEq, Repr

/-- The multer `fileFilter` of `upload`. -/
def fileFilter (file : UploadedFile) : FilterResult :=
  let valid :=
    test allowed (toLowerCase (extname file.originalname)) &&
    test allowed file.mimetype
  if valid then .accept else .reject (lit "Only image files allowed!")

/-! ## The route `POST /api/extract-chassis` -/

/-- One entry of `textAnnotations`. -/
structure Annotation where
  description : Option JSString

/-- The first element of what `textDetection` resolves to. -/
structure AnnotateResult where
  textAnnotations : Option (List Annotation)

/-- The Vision client: `textDetection(buffer)` either throws (with a message)
or resolves to `[result]`, where `result` may be undefined. -/
structure VisionClient where
  textDetection : List Nat → Except JSString (Option AnnotateResult)

/-- What the handler reads from outside the request. -/
structure Env where
  /-- the module-level `visionClient`; `none` is `null` -/
  visionClient : Option VisionClient
  /-- the value of `Date.now()` -/
  now : Nat
  /-- the value of `Math.random().toString(36).slice(2)` -/
  random : JSString
  /-- the call `fs.writeFileSync` into the upload directory: `some msg` when it throws -/
  writeFileSync : JSString → List Nat → Option JSString

/-- The request as the handler sees it: `req.files`, `none` when undefined. -/
structure Request where
  files : Option (List UploadedFile)

/-- The JSON response with its status code; an absent key is `none`. -/
structure Response where
  status : Nat
  success : Bool
  error : Option JSString
  message : Option JSString
  extractedText : Option JSString
  chassisNumber : Option JSString
  imageName : Option JSString
deriving DecidableEq, Repr

/-- The response and the calls made to the collaborators. -/
structure Outcome where
  response : Response
  /-- the buffers passed to `visionClient.textDetection` -/
  ocrCalls : List (List Nat)
  /-- the calls `fs.writeFileSync(path.join(uploadsDir, name), bytes)` as `(name, bytes)` -/
  writes : List (JSString × List Nat)
deriving DecidableEq, Repr

/-- The response `{ success: false, error: msg }`. -/
def errorResponse (status : Nat) (msg : JSString) : Response :=
  ⟨status, false, some msg, none, none, none, none⟩

/-- The decimal digits of a number, as `String(n)` gives them. -/
def decimal (n : Nat) : JSString := (Nat.toDigits 10 n).map Char.toNat

/-- The expression `result?.textAnnotations?.[0]?.description || ""`. -/
def recognizedText (result : Option AnnotateResult) : JSString :=
  match result with
  | none => []
  | some r =>
    match r.textAnnotations with
    | none => []
    | some [] => []
    | some (a :: _) => a.description.getD []

/-- The template string that makes `fileName`:
`Date.now()`, a hyphen, the random suffix and the original extension. -/
def savedName (env : Env) (file : UploadedFile) : JSString :=
  decimal env.now ++ lit "-" ++ env.random ++ extname file.originalname

/-- The handler of `POST /api/extract-chassis`, run after `upload.any()` and
`multerErrorHandler` let the request through. -/
def extractChassisRoute (env : Env) (req : Request) : Outcome :=
  match req.files with
  | none => ⟨errorResponse 400 (lit "No image uploaded"), [], []⟩
  | some [] => ⟨errorResponse 400 (lit "No image uploaded"), [], []⟩
  | some (file :: _) =>
    match env.visionClient with
    | none => ⟨errorResponse 500 (lit "Vision API not configured"), [], []⟩
    | some client =>
      match client.textDetection file.buffer with
      | .error msg =>
        ⟨errorResponse 500 (lit "Failed to process image: " ++ msg), [file.buffer], []⟩
      | .ok result =>
        let text := recognizedText result
        if text.isEmpty then
          ⟨errorResponse 400 (lit "No text detected in image"), [file.buffer], []⟩
        else
          match extractChassisNumber text with
          | none =>
            ⟨⟨200, false, none, some (lit "Chassis number not found"),
                some (substring0 text 400), none, none⟩, [file.buffer], []⟩
          | some chassis =>
            if chassis.isEmpty then
              ⟨⟨200, false, none, some (lit "Chassis number not found"),
                  some (substring0 text 400), none, none⟩, [file.buffer], []⟩
            else
              let fileName := savedName env file
              match env.writeFileSync fileName file.buffer with
              | some msg =>
                ⟨errorResponse 500 (lit "Failed to process image: " ++ msg),
                  [file.buffer], [(fileName, file.buffer)]⟩
              | none =>
                ⟨⟨200, true, none,
                    some (lit "Chassis number extracted successfully and image saved"),
                    none, some chassis, some fileName⟩,
                  [file.buffer], [(fileName, file.buffer)]⟩

/-! ## The upload filter as the specification words it -/

/-- The extensions of the allow-list, each taken as the whole extension. -/
def allowedExtensions : List JSString :=
  [lit ".jpeg", lit ".jpg", lit ".png", lit ".webp", lit ".gif"]

/-- The image media types of the allow-list. -/
def allowedMediaTypes : List JSString :=
  [lit "image/jpeg", lit "image/jpg", lit "image/png", lit "image/webp", lit "image/gif"]

/-! ## Sample collaborators -/

/-- A Vision client that recognizes the given text in every image. -/
def clientReading (text : JSString) : VisionClient :=
  ⟨fun _ => .ok (some ⟨some [⟨some text⟩]⟩)⟩

/-- An environment whose Vision client recognizes the given text and whose
file system accepts every write. -/
def envReading (text : JSString) : Env :=
  ⟨some (clientReading text), 1700000000000, lit "k3j9x2", fun _ _ => none⟩

/-- An environment without a Vision client. -/
def envNotConfigured : Env :=
  ⟨none, 1700000000000, lit "k3j9x2", fun _ _ => none⟩

/-- An environment whose Vision client throws on every call. -/
def envOcrThrows : Env :=
  ⟨some ⟨fun _ => .error (lit "quota exceeded")⟩, 1700000000000, lit "k3j9x2",
    fun _ _ => none⟩

/-- An environment whose Vision client recognizes the given text and whose
file system refuses every write. -/
def envWriteFails (text : JSString) : Env :=
  ⟨some (clientReading text), 1700000000000, lit "k3j9x2", fun _ _ => some (lit "ENOSPC")⟩

/-- A small JPEG upload. -/
def plateFile : UploadedFile := ⟨lit "plate.jpg", lit "image/jpeg", [255, 216, 255, 224]⟩

/-- A second upload, sent along with the first. -/
def otherFile : UploadedFile := ⟨lit "other.png", lit "image/png", [137, 80, 78, 71]⟩

/-! ## Declarative reading of a pattern -/

/-- The composition of `n` successive steps of a relation. -/
def Iter (R : State → State → Prop) : Nat → State → State → Prop
  | 0, x, z => z = x
  | n + 1, x, z => ∃ y, R x y ∧ Iter R n y z

/-- The states a pattern can lead to from a state, whatever the priorities. -/
def Sem : Regex → State → State → Prop
  | .empty, x, y => y = x
  | .cls p, x, y => ∃ ch cs, x.rest = ch :: cs ∧ p ch = true ∧ y = ⟨some ch, cs⟩
  | .bol, x, y => x.prev = none ∧ y = x
  | .eol, x, y => x.rest = [] ∧ y = x
  | .wordBoundary, x, y => isWordAt x.prev ≠ isWordAt x.rest.head? ∧ y = x
  | .seq a b, x, z => ∃ y, Sem a x y ∧ Sem b y z
  | .alt a b, x, y => Sem a x y ∨ Sem b x y
  | .rep r min max, x, y =>
    ∃ n, min ≤ n ∧ (∀ m, max = some m → n ≤ m) ∧ Iter (Sem r) n x y

/-- Every quantifier of the pattern has `min ≤ max` (the parser refuses others). -/
def WF : Regex → Prop
  | .seq a b => WF a ∧ WF b
  | .alt a b => WF a ∧ WF b
  | .rep r min max => WF r ∧ ∀ m, max = some m → min ≤ m
  | _ => True

/-- Every character class of the pattern is included in `P`. -/
def CharsIn (P : Nat → Bool) : Regex → Prop
  | .cls p => ∀ c, p c = true → P c = true
  | .seq a b => CharsIn P a ∧ CharsIn P b
  | .alt a b => CharsIn P a ∧ CharsIn P b
  | .rep r _ _ => CharsIn P r
  | _ => True

/-- The code unit before the position reached after skipping `before`. -/
def prevAfter (prev : Option Nat) (before : List Nat) : Option Nat :=
  match before.getLast? with
  | some c => some c
  | none => prev

/-- State `y` is state `x` moved over the word `w`. -/
def Over (w : List Nat) (x y : State) : Prop :=
  x.rest = w ++ y.rest ∧ y.prev = prevAfter x.prev w

/-- A string matching `^[A-Z0-9]{8,17}$`. -/
def IsIdentifier (s : JSString) : Prop :=
  8 ≤ s.length ∧ s.length ≤ 17 ∧ ∀ c ∈ s, isUpperAlnum c = true

/-- The class `[A-Za-z]`: a letter. -/
def isLetter (c : Nat) : Bool := isUpper c || isLower c

/-- The class `[A-Za-z0-9]`: a letter or a digit, in either case. -/
def isAlnum (c : Nat) : Bool := isLetter c || isDigit c

/-- The VIN alphabet in either case: a letter other than I, O, Q, or a digit. -/
def isVinChar (c : Nat) : Bool :=
  isAlnum c && !(c == 73 || c == 79 || c == 81 || c == 105 || c == 111 || c == 113)

/-- In `s`, the word `w` stands between `pre` and `post` and is delimited by
word boundaries: a non-empty run of `[A-Za-z0-9]` that is neither preceded nor
followed by a word character (a letter, a digit or an underscore). -/
def WordBounded (s pre w post : JSString) : Prop :=
  s = pre ++ w ++ post ∧ w ≠ [] ∧ (∀ c ∈ w, isAlnum c = true) ∧
    isWordAt pre.getLast? = false ∧ isWordAt post.head? = false

/-- A candidate of the general fallback: a word-bounded alphanumeric run of
length 8 to 17 that contains at least one letter. -/
def IsCandidate (s pre w post : JSString) : Prop :=
  WordBounded s pre w post ∧ 8 ≤ w.length ∧ w.length ≤ 17 ∧ ∃ c ∈ w, isLetter c = true

/-- A run as the pattern `\b[A-Z0-9]{min,17}\b` (flag `i`) delimits it, in a
search that started after the code unit `prev`. -/
def RunAt (p : Nat → Bool) (min : Nat) (prev : Option Nat) (pre w post : List Nat) : Prop :=
  (∀ c ∈ w, p c = true) ∧ min ≤ w.length ∧ w.length ≤ 17 ∧
    isWordAt (prevAfter prev pre) = false ∧ isWordAt post.head? = false

/-- The pattern `\b[class]{min,17}\b`, the common shape of `reVin` and `reGeneral`. -/
def boundedRun (p : Nat → Bool) (min : Nat) : Regex :=
  .seq .wordBoundary (.seq (.rep (.cls p) min (some 17)) .wordBoundary)

/-- Every character class of the pattern gives the same answer on `c` and on `f c`. -/
def ClassesRespect (f : Nat → Nat) : Regex → Prop
  | .cls p => ∀ c, p (f c) = p c
  | .seq a b => ClassesRespect f a ∧ ClassesRespect f b
  | .alt a b => ClassesRespect f a ∧ ClassesRespect f b
  | .rep r _ _ => ClassesRespect f r
  | _ => True

/-- A state with every code unit replaced by its image. -/
def State.image (f : Nat → Nat) (x : State) : State := ⟨x.prev.map f, x.rest.map f⟩

/-- A match with every code unit replaced by its image. -/
def Match.image (f : Nat → Nat) (mt : Match) : Match :=
  ⟨mt.before.map f, mt.text.map f, mt.after.image f⟩

/-- What `replace(/\s+/g, " ")` computes, as a scan: every run of white space
becomes one space. The flag tells that the previous code unit was white space. -/
def collapseAux : Bool → List Nat → List Nat
  | _, [] => []
  | inSpace, c :: cs =>
    if isWhiteSpace c then
      if inSpace then collapseAux true cs else 32 :: collapseAux true cs
    else c :: collapseAux false cs

/-- A representative of the classes a code unit belongs to: `A` for a letter
or digit, `-` for a separator of `[\s-]`, the underscore for itself and 0 for
anything else. -/
def classOf (c : Nat) : Nat :=
  if isAlnum c then 65 else if isSpaceOrHyphen c then 45 else if c = 95 then 95 else 0

/-- The leftmost match of the pattern is the whole string. -/
def matchesWhole (r : Regex) (s : List Nat) : Bool :=
  match exec r none s with
  | some e => e.before.isEmpty && e.text.length == s.length
  | none => false

/-! ## The segmented shape of the second tier, as the specification words it -/

/-- A group of a segmented identifier: 2 to 4 letters or digits. -/
def IsGroup (g : JSString) : Prop :=
  2 ≤ g.length ∧ g.length ≤ 4 ∧ ∀ c ∈ g, isAlnum c = true

instance (g : JSString) : Decidable (IsGroup g) := by
  unfold IsGroup
  exact inferInstance

/-- The text made of a first group and of further groups, each one joined to
what precedes by its own single separator. -/
def joined (first : JSString) : List (Nat × JSString) → JSString
  | [] => first
  | sg :: more => first ++ sg.1 :: joined sg.2 more

/-- The groups concatenated, separators stripped. -/
def compacted (first : JSString) : List (Nat × JSString) → JSString
  | [] => first
  | sg :: more => first ++ compacted sg.2 more

/-- A text of 3 to 6 groups joined by single hyphens or single spaces, whose
concatenation has a length between 8 and 17. -/
def Segmented (first : JSString) (more : List (Nat × JSString)) : Prop :=
  IsGroup first ∧ (∀ sg ∈ more, (sg.1 = 32 ∨ sg.1 = 45) ∧ IsGroup sg.2) ∧
    2 ≤ more.length ∧ more.length ≤ 5 ∧
    8 ≤ (compacted first more).length ∧ (compacted first more).length ≤ 17

instance (first : JSString) (more : List (Nat × JSString)) :
    Decidable (Segmented first more) := by
  unfold Segmented
  exact inferInstance

/-- The group `([A-Z0-9]{2,4}[\s-]?)` of `reSpaced`. -/
def reIter : Regex :=
  .seq (.rep (.cls (ignoreCase isUpperAlnum)) 2 (some 4))
       (.rep (.cls isSpaceOrHyphen) 0 (some 1))

/-- The last part `[A-Z0-9]{2,4}` of `reSpaced`. -/
def reFinal : Regex := .rep (.cls (ignoreCase isUpperAlnum)) 2 (some 4)

/-- The matcher stopped at the end of the input. -/
def endsWhole (o : Option State) : Bool :=
  match o with
  | some z => z.rest.isEmpty
  | none => false

/-- At a position whose previous code unit is a word character or not (`pw`),
the text `t` starts with the run `w` of the pattern `\b[class]{min,17}\b`. -/
def StartsRun (p : Nat → Bool) (min : Nat) (pw : Bool) (t w : List Nat) : Prop :=
  ∃ post, t = w ++ post ∧ (∀ c ∈ w, p c = true) ∧ min ≤ w.length ∧ w.length ≤ 17 ∧
    pw = false ∧ isWordAt post.head? = false

/-- The matched substring of a search, if any. -/
def execText (r : Regex) (prev : Option Nat) (t : List Nat) : Option JSString :=
  (exec r prev t).map (fun mt => mt.text)

/-- The matched substring of one attempt, if any. -/
def matchAtText (r : Regex) (prev : Option Nat) (t : List Nat) : Option JSString :=
  (matchAt r prev t).map (fun mt => mt.text)

/-- A 17-character substring `v` of `s`, made only of VIN-alphabet characters
and delimited by word boundaries, standing between `pre` and `post`. -/
def IsVinRun (s pre v post : JSString) : Prop :=
  WordBounded s pre v post ∧ v.length = 17 ∧ ∀ c ∈ v, isVinChar c = true

/-- The 17 code units of `s` from index `k` on are VIN-alphabet characters. -/
def vinAt (s : JSString) (k : Nat) : Bool :=
  ((s.drop k).take 17).length == 17 && ((s.drop k).take 17).all isVinChar

/-! ## Soundness of the matcher -/

theorem repeatMatcher_sound (m : Cont → Cont) (R : State → State → Prop)
    (hm : ∀ c x z, m c x = some z → ∃ y, R x y ∧ c y = some z) :
    ∀ (max min : Nat) (c : Cont) (x z : State), min ≤ max →
      repeatMatcher m max min c x = some z →
      ∃ n y, min ≤ n ∧ n ≤ max ∧ Iter R n x y ∧ c y = some z := by
  intro max
  induction max with
  | zero =>
    intro min c x z hle h
    simp only [repeatMatcher] at h
    exact ⟨0, x, by omega, le_refl 0, rfl, h⟩
  | succ k ih =>
    intro min c x z hle h
    simp only [repeatMatcher] at h
    have step : ∀ z, m (fun y =>
        if min = 0 ∧ y.rest.length = x.rest.length then none
        else repeatMatcher m k (min - 1) c y) x = some z →
        ∃ n y, min ≤ n ∧ n ≤ k + 1 ∧ Iter R n x y ∧ c y = some z := by
      intro z hz
      obtain ⟨y, hxy, hy⟩ := hm _ _ _ hz
      split at hy
      · exact absurd hy (by simp)
      · obtain ⟨n, y2, h1, h2, h3, h4⟩ := ih (min - 1) c y z (by omega) hy
        exact ⟨n + 1, y2, by omega, by omega, ⟨y, hxy, h3⟩, h4⟩
    by_cases hmin : min = 0
    · simp only [hmin, ne_eq, not_true_eq_false, if_false] at h
      split at h
      · next z2 hz2 =>
        have := step z2 (by simpa [hmin] using hz2)
        obtain ⟨n, y, h1, h2, h3, h4⟩ := this
        cases h
        exact ⟨n, y, h1, h2, h3, h4⟩
      · exact ⟨0, x, by omega, by omega, rfl, h⟩
    · rw [if_pos hmin] at h
      exact step z h

theorem matcher_sound : ∀ (r : Regex), WF r → ∀ (c : Cont) (x z : State),
    matcher r c x = some z → ∃ y, Sem r x y ∧ c y = some z := by
  intro r
  induction r with
  | empty => intro _ c x z h; exact ⟨x, rfl, h⟩
  | cls p =>
    intro _ c x z h
    simp only [matcher] at h
    split at h
    · exact absurd h (by simp)
    · next ch cs hx =>
      split at h
      · next hp => exact ⟨⟨some ch, cs⟩, ⟨ch, cs, hx, hp, rfl⟩, h⟩
      · exact absurd h (by simp)
  | bol =>
    intro _ c x z h
    simp only [matcher] at h
    split at h
    · next hp => exact ⟨x, ⟨by simpa using hp, rfl⟩, h⟩
    · exact absurd h (by simp)
  | eol =>
    intro _ c x z h
    simp only [matcher] at h
    split at h
    · next hp => exact ⟨x, ⟨by simpa using hp, rfl⟩, h⟩
    · exact absurd h (by simp)
  | wordBoundary =>
    intro _ c x z h
    simp only [matcher] at h
    split at h
    · next hp => exact ⟨x, ⟨by simpa using hp, rfl⟩, h⟩
    · exact absurd h (by simp)
  | seq a b iha ihb =>
    intro hwf c x z h
    simp only [matcher] at h
    obtain ⟨y, hxy, hy⟩ := iha hwf.1 _ _ _ h
    obtain ⟨y2, hy2, hc⟩ := ihb hwf.2 _ _ _ hy
    exact ⟨y2, ⟨y, hxy, hy2⟩, hc⟩
  | alt a b iha ihb =>
    intro hwf c x z h
    simp only [matcher] at h
    split at h
    · next z2 hz2 =>
      cases h
      obtain ⟨y, hxy, hy⟩ := iha hwf.1 _ _ _ hz2
      exact ⟨y, Or.inl hxy, hy⟩
    · obtain ⟨y, hxy, hy⟩ := ihb hwf.2 _ _ _ h
      exact ⟨y, Or.inr hxy, hy⟩
  | rep r min max ih =>
    intro hwf c x z h
    simp only [matcher] at h
    have hle : min ≤ max.getD (min + x.rest.length) := by
      cases max with
      | none => simp
      | some m => simpa using hwf.2 m rfl
    obtain ⟨n, y, h1, h2, h3, h4⟩ :=
      repeatMatcher_sound (matcher r) (Sem r) (ih hwf.1) _ _ c x z hle h
    refine ⟨y, ⟨n, h1, ?_, h3⟩, h4⟩
    intro m hm
    subst hm
    simpa using h2

theorem prevAfter_nil (prev : Option Nat) : prevAfter prev [] = prev := rfl

theorem prevAfter_cons (prev : Option Nat) (ch : Nat) (l : List Nat) :
    prevAfter prev (ch :: l) = prevAfter (some ch) l := by
  cases l with
  | nil => simp [prevAfter]
  | cons a t =>
    simp only [prevAfter, List.getLast?_cons_cons]
    cases h : (a :: t).getLast? with
    | none => simp at h
    | some v => rfl

theorem prevAfter_append (prev : Option Nat) : ∀ (u v : List Nat),
    prevAfter prev (u ++ v) = prevAfter (prevAfter prev u) v := by
  intro u
  induction u generalizing prev with
  | nil => intro v; rfl
  | cons a t ih =>
    intro v
    rw [List.cons_append, prevAfter_cons, prevAfter_cons, ih]

theorem prevAfter_concat (prev : Option Nat) (u : List Nat) (c : Nat) :
    prevAfter prev (u ++ [c]) = some c := by
  rw [prevAfter_append]
  rfl

theorem over_refl (x : State) : Over [] x x := ⟨rfl, rfl⟩

theorem over_trans (w1 w2 : List Nat) (x y z : State) (h1 : Over w1 x y) (h2 : Over w2 y z) :
    Over (w1 ++ w2) x z := by
  obtain ⟨a1, b1⟩ := h1
  obtain ⟨a2, b2⟩ := h2
  exact ⟨by rw [a1, a2, List.append_assoc], by rw [b2, b1, prevAfter_append]⟩

theorem iter_consumes (P : Nat → Bool) (R : State → State → Prop)
    (hR : ∀ x y, R x y → ∃ w, Over w x y ∧ ∀ c ∈ w, P c = true) :
    ∀ n x y, Iter R n x y → ∃ w, Over w x y ∧ ∀ c ∈ w, P c = true := by
  intro n
  induction n with
  | zero =>
    intro x y h
    simp only [Iter] at h
    subst h
    exact ⟨[], over_refl _, by simp⟩
  | succ k ih =>
    intro x z h
    obtain ⟨y, hxy, hyz⟩ := h
    obtain ⟨w1, ho1, hp1⟩ := hR x y hxy
    obtain ⟨w2, ho2, hp2⟩ := ih y z hyz
    refine ⟨w1 ++ w2, over_trans _ _ _ _ _ ho1 ho2, ?_⟩
    intro c hc
    rcases List.mem_append.1 hc with h | h
    · exact hp1 c h
    · exact hp2 c h

theorem sem_cls_over (p : Nat → Bool) (x y : State) (h : Sem (.cls p) x y) :
    ∃ ch, Over [ch] x y ∧ p ch = true := by
  obtain ⟨ch, cs, hx, hpc, hy⟩ := h
  subst hy
  exact ⟨ch, ⟨by simp [hx], by simp [prevAfter]⟩, hpc⟩

theorem sem_consumes (P : Nat → Bool) : ∀ (r : Regex), CharsIn P r → ∀ x y,
    Sem r x y → ∃ w, Over w x y ∧ ∀ c ∈ w, P c = true := by
  intro r
  induction r with
  | empty => intro _ x y h; simp only [Sem] at h; subst h; exact ⟨[], over_refl _, by simp⟩
  | cls p =>
    intro hp x y h
    obtain ⟨ch, ho, hpc⟩ := sem_cls_over p x y h
    exact ⟨[ch], ho, by simpa using hp ch hpc⟩
  | bol => intro _ x y h; obtain ⟨_, h⟩ := h; subst h; exact ⟨[], over_refl _, by simp⟩
  | eol => intro _ x y h; obtain ⟨_, h⟩ := h; subst h; exact ⟨[], over_refl _, by simp⟩
  | wordBoundary =>
    intro _ x y h; obtain ⟨_, h⟩ := h; subst h; exact ⟨[], over_refl _, by simp⟩
  | seq a b iha ihb =>
    intro hc x z h
    obtain ⟨y, hxy, hyz⟩ := h
    obtain ⟨w1, ho1, hp1⟩ := iha hc.1 x y hxy
    obtain ⟨w2, ho2, hp2⟩ := ihb hc.2 y z hyz
    refine ⟨w1 ++ w2, over_trans _ _ _ _ _ ho1 ho2, ?_⟩
    intro c hc
    rcases List.mem_append.1 hc with h | h
    · exact hp1 c h
    · exact hp2 c h
  | alt a b iha ihb =>
    intro hc x y h
    rcases h with h | h
    · exact iha hc.1 x y h
    · exact ihb hc.2 x y h
  | rep r min max ih =>
    intro hc x y h
    obtain ⟨n, _, _, hit⟩ := h
    exact iter_consumes P (Sem r) (ih hc) n x y hit

theorem matchAt_some (r : Regex) (rest : List Nat) (prev : Option Nat) (mt : Match)
    (h : matchAt r prev rest = some mt) :
    mt.before = [] ∧ matcher r some ⟨prev, rest⟩ = some mt.after ∧
      mt.text = rest.take (rest.length - mt.after.rest.length) := by
  unfold matchAt at h
  split at h
  · next e he => cases h; exact ⟨rfl, he, rfl⟩
  · exact absurd h (by simp)

theorem exec_some (r : Regex) : ∀ (rest : List Nat) (prev : Option Nat) (mt : Match),
    exec r prev rest = some mt →
    ∃ sfx, rest = mt.before ++ sfx ∧
      matcher r some ⟨prevAfter prev mt.before, sfx⟩ = some mt.after ∧
      mt.text = sfx.take (sfx.length - mt.after.rest.length) := by
  intro rest
  induction rest with
  | nil =>
    intro prev mt h
    simp only [exec] at h
    obtain ⟨h1, h2, h3⟩ := matchAt_some r _ _ _ h
    exact ⟨[], by simp [h1], by simpa [h1, prevAfter] using h2, h3⟩
  | cons ch cs ih =>
    intro prev mt h
    simp only [exec] at h
    split at h
    · next mt1 h1 =>
      cases h
      obtain ⟨h1, h2, h3⟩ := matchAt_some r _ _ _ h1
      exact ⟨ch :: cs, by simp [h1], by simpa [h1, prevAfter] using h2, h3⟩
    · split at h
      · next mt2 h2 =>
        cases h
        obtain ⟨sfx, h1, h2, h3⟩ := ih (some ch) mt2 h2
        refine ⟨sfx, by simp [h1], ?_, h3⟩
        simpa [prevAfter_cons] using h2
      · exact absurd h (by simp)

/-- No attempt succeeds before the match that a search returns. -/
theorem exec_leftmost (r : Regex) : ∀ (rest : List Nat) (prev : Option Nat) (mt : Match),
    exec r prev rest = some mt →
    ∀ u v, mt.before = u ++ v → v ≠ [] →
      ∀ sfx, rest = mt.before ++ sfx → matchAt r (prevAfter prev u) (v ++ sfx) = none := by
  intro rest
  induction rest with
  | nil =>
    intro prev mt h u v huv hv sfx hs
    have : mt.before = [] := by
      have := congrArg List.length hs
      simp at this
      exact List.length_eq_zero.1 (by omega)
    rw [this] at huv
    have := congrArg List.length huv
    simp at this
    exact absurd (List.length_eq_zero.1 (by omega)) hv
  | cons ch cs ih =>
    intro prev mt h u v huv hv sfx hs
    simp only [exec] at h
    split at h
    · next mt1 h1 =>
      cases h
      have hb := (matchAt_some r _ _ _ h1).1
      rw [hb] at huv
      have := congrArg List.length huv
      simp at this
      exact absurd (List.length_eq_zero.1 (by omega)) hv
    · next hnone =>
      split at h
      · next mt2 h2 =>
        cases h
        simp only at huv hs
        cases u with
        | nil =>
          simp only [List.nil_append] at huv
          rw [prevAfter_nil, ← huv, ← hs]
          exact hnone
        | cons a t =>
          simp only [List.cons_append, List.cons.injEq] at huv hs
          obtain ⟨ha, ht⟩ := huv
          subst ha
          rw [prevAfter_cons]
          exact ih (some ch) mt2 h2 t v ht hv sfx hs.2
      · exact absurd h (by simp)

theorem take_over (w sfx rest : List Nat) (h : sfx = w ++ rest) :
    sfx.take (sfx.length - rest.length) = w := by
  subst h
  simp

/-- What a search returns, read through the declarative semantics. -/
theorem exec_sem (r : Regex) (hwf : WF r) (rest : List Nat) (prev : Option Nat) (mt : Match)
    (h : exec r prev rest = some mt) :
    rest = mt.before ++ mt.text ++ mt.after.rest ∧
      mt.after.prev = prevAfter prev (mt.before ++ mt.text) ∧
      Sem r ⟨prevAfter prev mt.before, mt.text ++ mt.after.rest⟩ mt.after := by
  obtain ⟨sfx, h1, h2, h3⟩ := exec_some r rest prev mt h
  obtain ⟨y, hsem, hy⟩ := matcher_sound r hwf _ _ _ h2
  cases hy
  obtain ⟨w, ho, -⟩ := sem_consumes (fun _ => true) r (by
    clear hsem h2 h
    induction r with
    | seq a b iha ihb => exact ⟨iha hwf.1, ihb hwf.2⟩
    | alt a b iha ihb => exact ⟨iha hwf.1, ihb hwf.2⟩
    | rep r min max ih => exact ih hwf.1
    | cls p => intro c _; rfl
    | _ => trivial) _ _ hsem
  obtain ⟨ho1, ho2⟩ := ho
  simp only at ho1 ho2
  have ht : mt.text = w := by rw [h3]; exact take_over _ _ _ ho1
  rw [ht, h1, ho1, prevAfter_append]
  refine ⟨by simp, ho2, ?_⟩
  rw [← ho1]
  exact hsem

theorem exec_text (P : Nat → Bool) (r : Regex) (hwf : WF r) (hP : CharsIn P r)
    (rest : List Nat) (prev : Option Nat) (mt : Match) (h : exec r prev rest = some mt) :
    rest = mt.before ++ mt.text ++ mt.after.rest ∧ ∀ c ∈ mt.text, P c = true := by
  obtain ⟨h1, -, hsem⟩ := exec_sem r hwf rest prev mt h
  obtain ⟨w, ⟨ho, -⟩, hw⟩ := sem_consumes P r hP _ _ hsem
  simp only at ho
  have := List.append_cancel_right ho
  rw [← this] at hw
  exact ⟨h1, hw⟩

theorem iter_cls (p : Nat → Bool) : ∀ n x y, Iter (Sem (.cls p)) n x y →
    ∃ w, Over w x y ∧ w.length = n ∧ ∀ c ∈ w, p c = true := by
  intro n
  induction n with
  | zero =>
    intro x y h
    simp only [Iter] at h
    subst h
    exact ⟨[], over_refl _, rfl, by simp⟩
  | succ k ih =>
    intro x z h
    obtain ⟨y, hxy, hyz⟩ := h
    obtain ⟨ch, ho1, hpc⟩ := sem_cls_over p x y hxy
    obtain ⟨w, ho, hl, hp⟩ := ih _ z hyz
    refine ⟨[ch] ++ w, over_trans _ _ _ _ _ ho1 ho, by simp [hl], ?_⟩
    intro c hc
    rcases List.mem_append.1 hc with h | h
    · simp only [List.mem_singleton] at h; rw [h]; exact hpc
    · exact hp c h

/-- What a match of `\b[class]{min,max}\b` is: a word of the class, of a
length between `min` and `max`, with a word boundary at each end. -/
theorem sem_bounded_run (p : Nat → Bool) (min max : Nat) (x y : State)
    (h : Sem (.seq .wordBoundary (.seq (.rep (.cls p) min (some max)) .wordBoundary)) x y) :
    ∃ w, Over w x y ∧ min ≤ w.length ∧ w.length ≤ max ∧ (∀ c ∈ w, p c = true) ∧
      isWordAt x.prev ≠ isWordAt x.rest.head? ∧
      isWordAt y.prev ≠ isWordAt y.rest.head? := by
  obtain ⟨x1, ⟨hb1, hx1⟩, y1, ⟨n, hmin, hmax, hit⟩, ⟨hb2, hy1⟩⟩ := h
  subst hx1
  subst hy1
  obtain ⟨w, ho, hl, hp⟩ := iter_cls p n _ _ hit
  have := hmax max rfl
  exact ⟨w, ho, by omega, by omega, hp, hb1, hb2⟩

theorem wf_reVin : WF reVin := by simp [reVin, WF]
theorem wf_reGeneral : WF reGeneral := by simp [reGeneral, WF]
theorem wf_reSpaced : WF reSpaced := by simp [reSpaced, WF]

/-- A match of `\b[class]{min,max}\b` found by a search. -/
theorem exec_bounded_run (p : Nat → Bool) (min max : Nat) (hle : min ≤ max)
    (rest : List Nat) (prev : Option Nat) (mt : Match)
    (h : exec (.seq .wordBoundary (.seq (.rep (.cls p) min (some max)) .wordBoundary))
      prev rest = some mt) :
    rest = mt.before ++ mt.text ++ mt.after.rest ∧
      min ≤ mt.text.length ∧ mt.text.length ≤ max ∧ (∀ c ∈ mt.text, p c = true) ∧
      mt.after.prev = prevAfter prev (mt.before ++ mt.text) ∧
      isWordAt (prevAfter prev mt.before) ≠ isWordAt (mt.text ++ mt.after.rest).head? ∧
      isWordAt mt.after.prev ≠ isWordAt mt.after.rest.head? := by
  obtain ⟨h1, h2, hsem⟩ := exec_sem _ (by simp [WF]; exact hle) rest prev mt h
  obtain ⟨w, ⟨ho, -⟩, hl1, hl2, hp, hb1, hb2⟩ := sem_bounded_run p min max _ _ hsem
  simp only at ho hb1
  have ht := List.append_cancel_right ho
  rw [← ht] at hl1 hl2 hp
  exact ⟨h1, hl1, hl2, hp, h2, hb1, hb2⟩

theorem isUpperAlnum_of_vin (c : Nat) (h : isUpperVin c = true) : isUpperAlnum c = true := by
  simp only [isUpperVin, isUpperAlnum, isUpper, isDigit, Bool.or_eq_true, Bool.and_eq_true,
    decide_eq_true_eq, beq_iff_eq] at *
  omega

/-- Upper-casing a word of `[A-Z0-9]` under the `i` flag gives a word of `[A-Z0-9]`. -/
theorem toUpperCase_alnum (w : List Nat) (h : ∀ c ∈ w, ignoreCase isUpperAlnum c = true) :
    ∀ c ∈ toUpperCase w, isUpperAlnum c = true := by
  intro c hc
  simp only [toUpperCase, List.mem_map] at hc
  obtain ⟨a, ha, rfl⟩ := hc
  exact h a ha

theorem toUpperCase_length (w : List Nat) : (toUpperCase w).length = w.length := by
  simp [toUpperCase]

/-! ### Searching for one character of a class -/

theorem matchAt_cls (p : Nat → Bool) (prev : Option Nat) (rest : List Nat) :
    matchAt (.cls p) prev rest =
      match rest with
      | [] => none
      | ch :: cs => if p ch = true then some ⟨[], [ch], ⟨some ch, cs⟩⟩ else none := by
  cases rest with
  | nil => simp [matchAt, matcher]
  | cons ch cs =>
    by_cases h : p ch = true
    · simp [matchAt, matcher, h]
    · simp [matchAt, matcher, h]

theorem exec_cls_none (p : Nat → Bool) : ∀ (rest : List Nat) (prev : Option Nat),
    exec (.cls p) prev rest = none → rest.filter (fun c => !p c) = rest := by
  intro rest
  induction rest with
  | nil => intro _ _; rfl
  | cons ch cs ih =>
    intro prev h
    simp only [exec, matchAt_cls] at h
    by_cases hp : p ch = true
    · simp [hp] at h
    · simp only [hp, if_false] at h
      have h2 : exec (.cls p) (some ch) cs = none := by
        cases h3 : exec (.cls p) (some ch) cs with
        | none => rfl
        | some v => simp [h3] at h
      simp [hp, ih _ h2]

theorem exec_cls_some (p : Nat → Bool) : ∀ (rest : List Nat) (prev : Option Nat) (mt : Match),
    exec (.cls p) prev rest = some mt →
    ∃ ch, mt.text = [ch] ∧ rest = mt.before ++ ch :: mt.after.rest ∧
      mt.after.prev = some ch ∧ p ch = true ∧ mt.before.filter (fun c => !p c) = mt.before := by
  intro rest
  induction rest with
  | nil =>
    intro prev mt h
    simp [exec, matchAt_cls] at h
  | cons ch cs ih =>
    intro prev mt h
    simp only [exec, matchAt_cls] at h
    by_cases hp : p ch = true
    · simp only [hp, if_true] at h
      cases h
      exact ⟨ch, rfl, rfl, rfl, hp, rfl⟩
    · simp only [hp, if_false] at h
      cases h3 : exec (.cls p) (some ch) cs with
      | none => simp [h3] at h
      | some v =>
        simp only [h3, Bool.false_eq_true, if_false, Option.some.injEq] at h
        subst h
        obtain ⟨c2, h1, h2, h4, h5, h6⟩ := ih _ _ h3
        refine ⟨c2, h1, by simp [← h2], h4, h5, ?_⟩
        simp [hp, h6]

/-- Removing every character of a class with `replace(/[class]/g, "")` keeps
exactly the characters outside the class, in order. -/
theorem replaceAllFrom_cls (p : Nat → Bool) : ∀ (fuel : Nat) (rest : List Nat)
    (prev : Option Nat), rest.length < fuel →
    replaceAllFrom (.cls p) [] fuel prev rest = rest.filter (fun c => !p c) := by
  intro fuel
  induction fuel with
  | zero => intro rest prev h; omega
  | succ k ih =>
    intro rest prev hlen
    simp only [replaceAllFrom]
    cases h : exec (.cls p) prev rest with
    | none => simp [exec_cls_none p rest prev h]
    | some mt =>
      obtain ⟨ch, h1, h2, h4, h5, h6⟩ := exec_cls_some p rest prev mt h
      have hl : mt.after.rest.length < k := by
        have := congrArg List.length h2
        simp at this
        omega
      simp only [h1, List.isEmpty_cons, Bool.false_eq_true, if_false, List.append_nil]
      rw [ih _ _ hl]
      conv_rhs => rw [h2]
      simp [h5, h6]

theorem replaceAll_cls (p : Nat → Bool) (s : List Nat) :
    replaceAll (.cls p) [] s = s.filter (fun c => !p c) :=
  replaceAllFrom_cls p _ s none (Nat.lt_succ_self _)

/-! ### Global matching -/

theorem matchAllFrom_mem (r : Regex) : ∀ (fuel : Nat) (prev : Option Nat) (rest : List Nat)
    (t : JSString), t ∈ matchAllFrom r fuel prev rest →
    ∃ prev2 rest2 mt, exec r prev2 rest2 = some mt ∧ mt.text = t := by
  intro fuel
  induction fuel with
  | zero => intro prev rest t h; simp [matchAllFrom] at h
  | succ k ih =>
    intro prev rest t h
    simp only [matchAllFrom] at h
    cases he : exec r prev rest with
    | none => simp [he] at h
    | some mt =>
      simp only [he, List.mem_cons] at h
      rcases h with h | h
      · exact ⟨prev, rest, mt, he, h.symm⟩
      · split at h
        · split at h
          · simp at h
          · exact ih _ _ _ h
        · exact ih _ _ _ h

theorem firstGeneral_some : ∀ (ms : List JSString) (m : JSString),
    firstGeneral ms = some m → ∃ mt ∈ ms, m = toUpperCase mt ∧ test reLetter m = true := by
  intro ms
  induction ms with
  | nil => intro m h; simp [firstGeneral] at h
  | cons a t ih =>
    intro m h
    simp only [firstGeneral] at h
    split at h
    · obtain ⟨mt, h1, h2⟩ := ih m h
      exact ⟨mt, List.mem_cons_of_mem _ h1, h2⟩
    · split at h
      · obtain ⟨mt, h1, h2⟩ := ih m h
        exact ⟨mt, List.mem_cons_of_mem _ h1, h2⟩
      · next hl =>
        split at h
        · obtain ⟨mt, h1, h2⟩ := ih m h
          exact ⟨mt, List.mem_cons_of_mem _ h1, h2⟩
        · cases h
          exact ⟨a, List.mem_cons_self _ _, rfl, by simpa using hl⟩

/-! ### The shape of an extracted identifier -/

theorem charsIn_reSpaced :
    CharsIn (fun c => ignoreCase isUpperAlnum c || isSpaceOrHyphen c) reSpaced := by
  simp only [reSpaced, CharsIn]
  refine ⟨⟨?_, ?_⟩, ?_⟩ <;> intro c hc <;> simp [hc]

theorem matchFirst_some (r : Regex) (s t : JSString) (h : matchFirst r s = some t) :
    ∃ mt, exec r none s = some mt ∧ mt.text = t := by
  simp only [matchFirst, Option.map_eq_some'] at h
  exact h

theorem vin_isIdentifier (clean vin : JSString) (h : matchFirst reVin clean = some vin) :
    IsIdentifier (toUpperCase vin) ∧ vin.length = 17 ∧
      ∀ c ∈ vin, ignoreCase isUpperVin c = true := by
  obtain ⟨mt, he, ht⟩ := matchFirst_some _ _ _ h
  obtain ⟨-, h1, h2, h3, -⟩ := exec_bounded_run _ 17 17 (le_refl _) _ _ _ he
  rw [ht] at h1 h2 h3
  refine ⟨⟨by rw [toUpperCase_length]; omega, by rw [toUpperCase_length]; omega, ?_⟩,
    by omega, h3⟩
  apply toUpperCase_alnum
  intro c hc
  exact isUpperAlnum_of_vin _ (h3 c hc)

theorem spacedCandidate_isIdentifier (clean compact : JSString)
    (h : spacedCandidate clean = some compact) : IsIdentifier compact := by
  simp only [spacedCandidate] at h
  split at h
  · next spaced hs =>
    split at h
    · next hlen =>
      cases h
      refine ⟨hlen.1, hlen.2, ?_⟩
      obtain ⟨mt, he, ht⟩ := matchFirst_some _ _ _ hs
      obtain ⟨-, hp⟩ := exec_text _ _ wf_reSpaced charsIn_reSpaced _ _ _ he
      rw [ht] at hp
      apply toUpperCase_alnum
      intro c hc
      rw [reSeparator, replaceAll_cls] at hc
      simp only [List.mem_filter, Bool.not_eq_true'] at hc
      have := hp c hc.1
      simpa [hc.2] using this
    · exact absurd h (by simp)
  · exact absurd h (by simp)

theorem general_isIdentifier (clean m : JSString)
    (h : firstGeneral (matchAll reGeneral clean) = some m) :
    IsIdentifier m ∧ test reLetter m = true := by
  obtain ⟨mt, hmem, hm, hl⟩ := firstGeneral_some _ _ h
  obtain ⟨prev2, rest2, mt2, he, ht⟩ := matchAllFrom_mem _ _ _ _ _ hmem
  obtain ⟨-, h1, h2, h3, -⟩ := exec_bounded_run _ 8 17 (by omega) _ _ _ he
  rw [ht] at h1 h2 h3
  subst hm
  exact ⟨⟨by rw [toUpperCase_length]; exact h1, by rw [toUpperCase_length]; exact h2,
    toUpperCase_alnum _ h3⟩, hl⟩

/-- Whatever tier produced it, an extracted identifier matches `^[A-Z0-9]{8,17}$`. -/
theorem extract_isIdentifier (text ident : JSString)
    (h : extractChassisNumber text = some ident) : IsIdentifier ident := by
  simp only [extractChassisNumber] at h
  split at h
  · exact absurd h (by simp)
  · split at h
    · next vin hv =>
      cases h
      exact (vin_isIdentifier _ _ hv).1
    · split at h
      · next compact hc =>
        cases h
        exact spacedCandidate_isIdentifier _ _ hc
      · exact (general_isIdentifier _ _ h).1

/-- C8. Whenever `extractChassisNumber` returns an identifier, it matches
`^[A-Z0-9]{8,17}$`: between 8 and 17 code units, each an upper-case ASCII letter
or a decimal digit, so none is a space, a hyphen or a lower-case letter. -/
theorem identifier_shape (text ident : JSString)
    (h : extractChassisNumber text = some ident) :
    8 ≤ ident.length ∧ ident.length ≤ 17 ∧
      (∀ c ∈ ident, isUpper c = true ∨ isDigit c = true) ∧
      (∀ c ∈ ident, isSpaceOrHyphen c = false ∧ isLower c = false) := by
  obtain ⟨h1, h2, h3⟩ := extract_isIdentifier text ident h
  refine ⟨h1, h2, ?_, ?_⟩
  · intro c hc
    simpa [isUpperAlnum] using h3 c hc
  · intro c hc
    have := h3 c hc
    simp only [isUpperAlnum, isUpper, isDigit, isSpaceOrHyphen, isWhiteSpace, isLower,
      Bool.or_eq_true, Bool.and_eq_true, decide_eq_true_eq, beq_iff_eq, Bool.or_eq_false_iff,
      Bool.and_eq_false_iff, decide_eq_false_iff_not, beq_eq_false_iff_ne] at *
    omega

theorem identifier_shape_witness :
    8 ≤ (lit "AB12CD34EF").length ∧ (lit "AB12CD34EF").length ≤ 17 ∧
      (∀ c ∈ lit "AB12CD34EF", isUpper c = true ∨ isDigit c = true) ∧
      (∀ c ∈ lit "AB12CD34EF", isSpaceOrHyphen c = false ∧ isLower c = false) :=
  identifier_shape (lit "AB12-CD34-EF") (lit "AB12CD34EF") (by decide)

/-! ### The route -/

theorem extract_ne_nil (text ident : JSString)
    (h : extractChassisNumber text = some ident) : ident.isEmpty = false := by
  obtain ⟨h1, -, -⟩ := extract_isIdentifier text ident h
  cases ident with
  | nil => simp at h1
  | cons a t => rfl

theorem route_no_file (env : Env) (req : Request)
    (h : req.files = none ∨ req.files = some []) :
    extractChassisRoute env req = ⟨errorResponse 400 (lit "No image uploaded"), [], []⟩ := by
  rcases h with h | h <;> simp [extractChassisRoute, h]

theorem route_not_configured (env : Env) (req : Request) (file : UploadedFile)
    (more : List UploadedFile) (hf : req.files = some (file :: more))
    (hv : env.visionClient = none) :
    extractChassisRoute env req =
      ⟨errorResponse 500 (lit "Vision API not configured"), [], []⟩ := by
  simp [extractChassisRoute, hf, hv]

theorem route_ocr_throws (env : Env) (req : Request) (file : UploadedFile)
    (more : List UploadedFile) (client : VisionClient) (msg : JSString)
    (hf : req.files = some (file :: more)) (hv : env.visionClient = some client)
    (hd : client.textDetection file.buffer = .error msg) :
    extractChassisRoute env req =
      ⟨errorResponse 500 (lit "Failed to process image: " ++ msg), [file.buffer], []⟩ := by
  simp [extractChassisRoute, hf, hv, hd]

theorem route_no_text (env : Env) (req : Request) (file : UploadedFile)
    (more : List UploadedFile) (client : VisionClient) (result : Option AnnotateResult)
    (hf : req.files = some (file :: more)) (hv : env.visionClient = some client)
    (hd : client.textDetection file.buffer = .ok result)
    (ht : recognizedText result = []) :
    extractChassisRoute env req =
      ⟨errorResponse 400 (lit "No text detected in image"), [file.buffer], []⟩ := by
  simp [extractChassisRoute, hf, hv, hd, ht]

theorem route_not_found (env : Env) (req : Request) (file : UploadedFile)
    (more : List UploadedFile) (client : VisionClient) (result : Option AnnotateResult)
    (hf : req.files = some (file :: more)) (hv : env.visionClient = some client)
    (hd : client.textDetection file.buffer = .ok result)
    (ht : recognizedText result ≠ [])
    (he : extractChassisNumber (recognizedText result) = none) :
    extractChassisRoute env req =
      ⟨⟨200, false, none, some (lit "Chassis number not found"),
        some (substring0 (recognizedText result) 400), none, none⟩, [file.buffer], []⟩ := by
  simp [extractChassisRoute, hf, hv, hd, ht, he]

theorem route_write_throws (env : Env) (req : Request) (file : UploadedFile)
    (more : List UploadedFile) (client : VisionClient) (result : Option AnnotateResult)
    (ident msg : JSString)
    (hf : req.files = some (file :: more)) (hv : env.visionClient = some client)
    (hd : client.textDetection file.buffer = .ok result)
    (he : extractChassisNumber (recognizedText result) = some ident)
    (hw : env.writeFileSync (savedName env file) file.buffer = some msg) :
    extractChassisRoute env req =
      ⟨errorResponse 500 (lit "Failed to process image: " ++ msg),
        [file.buffer], [(savedName env file, file.buffer)]⟩ := by
  have ht : (recognizedText result).isEmpty = false := by
    cases h : recognizedText result with
    | nil => rw [h] at he; simp [extractChassisNumber] at he
    | cons a t => rfl
  simp [extractChassisRoute, hf, hv, hd, ht, he, extract_ne_nil _ _ he, hw]

theorem route_success (env : Env) (req : Request) (file : UploadedFile)
    (more : List UploadedFile) (client : VisionClient) (result : Option AnnotateResult)
    (ident : JSString)
    (hf : req.files = some (file :: more)) (hv : env.visionClient = some client)
    (hd : client.textDetection file.buffer = .ok result)
    (he : extractChassisNumber (recognizedText result) = some ident)
    (hw : env.writeFileSync (savedName env file) file.buffer = none) :
    extractChassisRoute env req =
      ⟨⟨200, true, none, some (lit "Chassis number extracted successfully and image saved"),
        none, some ident, some (savedName env file)⟩,
        [file.buffer], [(savedName env file, file.buffer)]⟩ := by
  have ht : (recognizedText result).isEmpty = false := by
    cases h : recognizedText result with
    | nil => rw [h] at he; simp [extractChassisNumber] at he
    | cons a t => rfl
  simp [extractChassisRoute, hf, hv, hd, ht, he, extract_ne_nil _ _ he, hw]

/-- Either nothing is written, or an identifier was extracted from the text
recognized in the first file and that file is the one write. -/
theorem route_writes (env : Env) (req : Request) :
    (extractChassisRoute env req).writes = [] ∨
    ∃ file more client result ident,
      req.files = some (file :: more) ∧ env.visionClient = some client ∧
      client.textDetection file.buffer = .ok result ∧
      extractChassisNumber (recognizedText result) = some ident ∧
      (extractChassisRoute env req).writes = [(savedName env file, file.buffer)] ∧
      ((extractChassisRoute env req).response.success = true ∨
        ∃ msg, (extractChassisRoute env req).response =
          errorResponse 500 (lit "Failed to process image: " ++ msg)) := by
  cases hf : req.files with
  | none => left; rw [route_no_file env req (Or.inl hf)]
  | some files =>
    cases files with
    | nil => left; rw [route_no_file env req (Or.inr hf)]
    | cons file more =>
      cases hv : env.visionClient with
      | none => left; rw [route_not_configured env req file more hf hv]
      | some client =>
        cases hd : client.textDetection file.buffer with
        | error msg => left; rw [route_ocr_throws env req file more client msg hf hv hd]
        | ok result =>
          by_cases ht : recognizedText result = []
          · left; rw [route_no_text env req file more client result hf hv hd ht]
          · cases he : extractChassisNumber (recognizedText result) with
            | none => left; rw [route_not_found env req file more client result hf hv hd ht he]
            | some ident =>
              right
              refine ⟨file, more, client, result, ident, rfl, rfl, hd, he, ?_⟩
              cases hw : env.writeFileSync (savedName env file) file.buffer with
              | some msg =>
                rw [route_write_throws env req file more client result ident msg hf hv hd he hw]
                exact ⟨rfl, Or.inr ⟨msg, rfl⟩⟩
              | none =>
                rw [route_success env req file more client result ident hf hv hd he hw]
                exact ⟨rfl, Or.inl rfl⟩

theorem failed_ne_not_configured (msg : JSString) :
    lit "Failed to process image: " ++ msg ≠ lit "Vision API not configured" := by
  have h1 : lit "Failed to process image: " = 70 :: (lit "Failed to process image: ").tail := by
    decide
  have h2 : lit "Vision API not configured" = 86 :: (lit "Vision API not configured").tail := by
    decide
  rw [h1, h2]
  intro h
  simp at h

/-- C3. The upload is written exactly when an identifier is extracted from the
text recognized in the first file: the write list is non-empty if and only if
the first file's text yields an identifier, it is then the single write of
that file's bytes, and a request that ends as no-file, not-configured, no-text
or not-found writes nothing. -/
theorem persist_iff_found (env : Env) (req : Request) :
    ((extractChassisRoute env req).writes ≠ [] ↔
      ∃ file more client result ident,
        req.files = some (file :: more) ∧ env.visionClient = some client ∧
        client.textDetection file.buffer = .ok result ∧
        extractChassisNumber (recognizedText result) = some ident) ∧
    (∀ file more, req.files = some (file :: more) →
      (extractChassisRoute env req).writes ≠ [] →
      (extractChassisRoute env req).writes = [(savedName env file, file.buffer)]) ∧
    ((extractChassisRoute env req).response = errorResponse 400 (lit "No image uploaded") →
      (extractChassisRoute env req).writes = []) ∧
    ((extractChassisRoute env req).response =
        errorResponse 500 (lit "Vision API not configured") →
      (extractChassisRoute env req).writes = []) ∧
    ((extractChassisRoute env req).response =
        errorResponse 400 (lit "No text detected in image") →
      (extractChassisRoute env req).writes = []) ∧
    ((extractChassisRoute env req).response.message = some (lit "Chassis number not found") →
      (extractChassisRoute env req).writes = []) := by
  refine ⟨⟨?_, ?_⟩, ?_, ?_, ?_, ?_, ?_⟩
  · intro h
    rcases route_writes env req with h0 | ⟨file, more, client, result, ident, h1, h2, h3, h4, -⟩
    · exact absurd h0 h
    · exact ⟨file, more, client, result, ident, h1, h2, h3, h4⟩
  · rintro ⟨file, more, client, result, ident, hf, hv, hd, he⟩
    cases hw : env.writeFileSync (savedName env file) file.buffer with
    | some msg =>
      rw [route_write_throws env req file more client result ident msg hf hv hd he hw]
      simp
    | none =>
      rw [route_success env req file more client result ident hf hv hd he hw]
      simp
  · intro file more hf h
    rcases route_writes env req with h0 | ⟨file2, more2, _, _, _, h1, -, -, -, h5, -⟩
    · exact absurd h0 h
    · rw [hf] at h1
      cases h1
      exact h5
  · intro h
    rcases route_writes env req with h0 | ⟨_, _, _, _, _, -, -, -, -, -, h6⟩
    · exact h0
    · rw [h] at h6
      rcases h6 with h6 | ⟨msg, h6⟩
      · simp [errorResponse] at h6
      · simp [errorResponse] at h6
  · intro h
    rcases route_writes env req with h0 | ⟨_, _, _, _, _, -, -, -, -, -, h6⟩
    · exact h0
    · rw [h] at h6
      rcases h6 with h6 | ⟨msg, h6⟩
      · simp [errorResponse] at h6
      · simp only [errorResponse, Response.mk.injEq, Option.some.injEq, true_and, and_true] at h6
        exact absurd h6.symm (failed_ne_not_configured msg)
  · intro h
    rcases route_writes env req with h0 | ⟨_, _, _, _, _, -, -, -, -, -, h6⟩
    · exact h0
    · rw [h] at h6
      rcases h6 with h6 | ⟨msg, h6⟩
      · simp [errorResponse] at h6
      · simp [errorResponse] at h6
  · intro h
    rcases route_writes env req with h0 | ⟨file, more, client, result, ident, hf, hv, hd, he, -, -⟩
    · exact h0
    · exfalso
      cases hw : env.writeFileSync (savedName env file) file.buffer with
      | some msg =>
        rw [route_write_throws env req file more client result ident msg hf hv hd he hw] at h
        simp [errorResponse] at h
      | none =>
        rw [route_success env req file more client result ident hf hv hd he hw] at h
        revert h
        simp only [Option.some.injEq]
        decide

theorem persist_iff_found_witness :
    (extractChassisRoute (envReading (lit "ENGINE OIL CHANGE DUE 20231015"))
        ⟨some [plateFile, otherFile]⟩).response =
      ⟨200, false, none, some (lit "Chassis number not found"),
        some (lit "ENGINE OIL CHANGE DUE 20231015"), none, none⟩ ∧
    (extractChassisRoute (envReading (lit "ENGINE OIL CHANGE DUE 20231015"))
        ⟨some [plateFile, otherFile]⟩).writes = [] ∧
    (extractChassisRoute (envReading (lit "CHASSIS NO: MA3ERLF1S00123456 DATE 20231015"))
        ⟨some [plateFile, otherFile]⟩).writes =
      [(lit "1700000000000-k3j9x2.jpg", [255, 216, 255, 224])] :=
  ⟨by decide,
   (persist_iff_found _ _).2.2.2.2.2 (by decide),
   (persist_iff_found (envReading (lit "CHASSIS NO: MA3ERLF1S00123456 DATE 20231015"))
      ⟨some [plateFile, otherFile]⟩).2.1 plateFile [otherFile] rfl (by decide)⟩

/-- C4, as stated, fails: with a file uploaded, a Vision client present and
the text `AB12-CD34-EF` recognized, from which `AB12CD34EF` is extracted, the
answer is not the 200 success of case 5 when writing the image throws, but 500
"Failed to process image: ENOSPC"; and when the OCR call throws the answer is
500 "Failed to process image: quota exceeded", none of the five. -/
theorem collaborator_failure_answers_500 :
    extractChassisNumber (lit "AB12-CD34-EF") = some (lit "AB12CD34EF") ∧
    (extractChassisRoute (envWriteFails (lit "AB12-CD34-EF")) ⟨some [plateFile]⟩).response =
      ⟨500, false, some (lit "Failed to process image: ENOSPC"), none, none, none, none⟩ ∧
    (extractChassisRoute envOcrThrows ⟨some [plateFile]⟩).response =
      ⟨500, false, some (lit "Failed to process image: quota exceeded"),
        none, none, none, none⟩ := by
  decide

/-- C4, amended. For every request the response is decided by the first check
that fails, in the order of the handler: (1) no file gives 400 `success: false`,
`error: "No image uploaded"`, whatever the client, and no OCR call; (2) else a
null client gives 500 `error: "Vision API not configured"` and no OCR call;
else the OCR call is made and, if it throws, the answer is 500
`error: "Failed to process image: " + message`; (3) else empty text gives 400
`error: "No text detected in image"`; (4) else a null extraction gives 200
`success: false`, `message: "Chassis number not found"`, `extractedText` the
first 400 code units of the text; (5) else the image is written and, if the
write throws, the answer is 500 `error: "Failed to process image: " + message`,
and otherwise 200 `success: true` with the extracted identifier and the file
name. OCR is only ever called on the first file. -/
theorem response_cascade (env : Env) (req : Request) :
    ((req.files = none ∨ req.files = some []) →
      (extractChassisRoute env req).response =
        ⟨400, false, some (lit "No image uploaded"), none, none, none, none⟩ ∧
      (extractChassisRoute env req).ocrCalls = []) ∧
    (∀ file more, req.files = some (file :: more) →
      (env.visionClient = none →
        (extractChassisRoute env req).response =
          ⟨500, false, some (lit "Vision API not configured"), none, none, none, none⟩ ∧
        (extractChassisRoute env req).ocrCalls = []) ∧
      (∀ client, env.visionClient = some client →
        (∀ msg, client.textDetection file.buffer = .error msg →
          (extractChassisRoute env req).response =
            ⟨500, false, some (lit "Failed to process image: " ++ msg),
              none, none, none, none⟩) ∧
        (∀ result, client.textDetection file.buffer = .ok result →
          (recognizedText result = [] →
            (extractChassisRoute env req).response =
              ⟨400, false, some (lit "No text detected in image"), none, none, none, none⟩) ∧
          (recognizedText result ≠ [] →
            extractChassisNumber (recognizedText result) = none →
            (extractChassisRoute env req).response =
              ⟨200, false, none, some (lit "Chassis number not found"),
                some ((recognizedText result).take 400), none, none⟩) ∧
          (∀ ident, extractChassisNumber (recognizedText result) = some ident →
            (∀ msg, env.writeFileSync (savedName env file) file.buffer = some msg →
              (extractChassisRoute env req).response =
                ⟨500, false, some (lit "Failed to process image: " ++ msg),
                  none, none, none, none⟩) ∧
            (env.writeFileSync (savedName env file) file.buffer = none →
              (extractChassisRoute env req).response =
                ⟨200, true, none,
                  some (lit "Chassis number extracted successfully and image saved"),
                  none, some ident, some (savedName env file)⟩)))) ∧
      ((extractChassisRoute env req).ocrCalls = [] ∨
        (extractChassisRoute env req).ocrCalls = [file.buffer])) := by
  refine ⟨fun h => by rw [route_no_file env req h]; exact ⟨rfl, rfl⟩, ?_⟩
  intro file more hf
  refine ⟨fun hv => by rw [route_not_configured env req file more hf hv]; exact ⟨rfl, rfl⟩,
    ?_, ?_⟩
  · intro client hv
    refine ⟨?_, ?_⟩
    · intro msg hd
      rw [route_ocr_throws env req file more client msg hf hv hd]
      rfl
    · intro result hd
      refine ⟨?_, ?_, ?_⟩
      · intro ht
        rw [route_no_text env req file more client result hf hv hd ht]
        rfl
      · intro ht he
        rw [route_not_found env req file more client result hf hv hd ht he]
        rfl
      · intro ident he
        refine ⟨?_, ?_⟩
        · intro msg hw
          rw [route_write_throws env req file more client result ident msg hf hv hd he hw]
          rfl
        · intro hw
          rw [route_success env req file more client result ident hf hv hd he hw]
  · cases hv : env.visionClient with
    | none => left; rw [route_not_configured env req file more hf hv]
    | some client =>
      right
      cases hd : client.textDetection file.buffer with
      | error msg => rw [route_ocr_throws env req file more client msg hf hv hd]
      | ok result =>
        by_cases ht : recognizedText result = []
        · rw [route_no_text env req file more client result hf hv hd ht]
        · cases he : extractChassisNumber (recognizedText result) with
          | none => rw [route_not_found env req file more client result hf hv hd ht he]
          | some ident =>
            cases hw : env.writeFileSync (savedName env file) file.buffer with
            | some msg =>
              rw [route_write_throws env req file more client result ident msg hf hv hd he hw]
            | none =>
              rw [route_success env req file more client result ident hf hv hd he hw]

theorem response_cascade_witness :
    ((extractChassisRoute envNotConfigured ⟨some []⟩).response =
        ⟨400, false, some (lit "No image uploaded"), none, none, none, none⟩ ∧
      (extractChassisRoute envNotConfigured ⟨some []⟩).ocrCalls = []) ∧
    ((extractChassisRoute envNotConfigured ⟨some [plateFile, otherFile]⟩).response =
        ⟨500, false, some (lit "Vision API not configured"), none, none, none, none⟩ ∧
      (extractChassisRoute envNotConfigured ⟨some [plateFile, otherFile]⟩).ocrCalls = []) ∧
    (extractChassisRoute envOcrThrows ⟨some [plateFile, otherFile]⟩).response =
      ⟨500, false, some (lit "Failed to process image: " ++ lit "quota exceeded"),
        none, none, none, none⟩ ∧
    (extractChassisRoute (envWriteFails (lit "AB12-CD34-EF"))
        ⟨some [plateFile, otherFile]⟩).response =
      ⟨500, false, some (lit "Failed to process image: " ++ lit "ENOSPC"),
        none, none, none, none⟩ ∧
    (extractChassisRoute (envReading (lit "AB12-CD34-EF"))
        ⟨some [plateFile, otherFile]⟩).response =
      ⟨200, true, none, some (lit "Chassis number extracted successfully and image saved"),
        none, some (lit "AB12CD34EF"),
        some (savedName (envReading (lit "AB12-CD34-EF")) plateFile)⟩ :=
  ⟨(response_cascade envNotConfigured ⟨some []⟩).1 (Or.inr rfl),
   ((response_cascade envNotConfigured ⟨some [plateFile, otherFile]⟩).2
      plateFile [otherFile] rfl).1 rfl,
   ((((response_cascade envOcrThrows ⟨some [plateFile, otherFile]⟩).2
      plateFile [otherFile] rfl).2.1 _ rfl).1 (lit "quota exceeded") rfl),
   ((((((response_cascade (envWriteFails (lit "AB12-CD34-EF"))
      ⟨some [plateFile, otherFile]⟩).2 plateFile [otherFile] rfl).2.1
      (clientReading (lit "AB12-CD34-EF")) rfl).2 _ rfl).2.2
      (lit "AB12CD34EF") (by decide)).1 (lit "ENOSPC") rfl),
   ((((((response_cascade (envReading (lit "AB12-CD34-EF"))
      ⟨some [plateFile, otherFile]⟩).2 plateFile [otherFile] rfl).2.1
      (clientReading (lit "AB12-CD34-EF")) rfl).2 _ rfl).2.2
      (lit "AB12CD34EF") (by decide)).2 rfl)⟩

/-! ### The digit-only date stamp -/

/-- C1. On the text `20231015` the second tier returns the date stamp itself:
an identifier of exactly 8 decimal digits, without any letter. -/
theorem date_stamp_returned :
    extractChassisNumber (lit "20231015") = some (lit "20231015") ∧
      spacedCandidate (cleanText (lit "20231015")) = some (lit "20231015") ∧
      (lit "20231015").length = 8 ∧ (lit "20231015").all isDigit = true ∧
      test reLetter (lit "20231015") = false := by
  decide

/-- C6. A text of decimal digits only is not always refused: `20231015` comes
back from the second tier and seventeen digits come back from the first. -/
theorem digits_only_found :
    extractChassisNumber (lit "20231015") ≠ none ∧
      extractChassisNumber (lit "12345678901234567") = some (lit "12345678901234567") ∧
      matchFirst reVin (cleanText (lit "12345678901234567")) =
        some (lit "12345678901234567") := by
  decide

/-! ### The upload filter -/

/-- C9. The filter lets through a file that is outside the allow-list: the
upload named `scan.jpgx` and declared as `text/gif` is accepted, although its
lower-cased extension `.jpgx` is none of `.jpeg`, `.jpg`, `.png`, `.webp`,
`.gif` and `text/gif` is not the image type of any of them; the unanchored
pattern finds `jpg` inside `.jpgx` and `gif` inside `text/gif`. -/
theorem fileFilter_accepts_outside_allow_list :
    fileFilter ⟨lit "scan.jpgx", lit "text/gif", []⟩ = .accept ∧
    toLowerCase (extname (lit "scan.jpgx")) = lit ".jpgx" ∧
    lit ".jpgx" ∉ allowedExtensions ∧ lit "text/gif" ∉ allowedMediaTypes ∧
    test allowed (lit ".jpgx") = true ∧ test allowed (lit "text/gif") = true := by
  decide

/-! ### Searching from a later position -/

theorem exec_of_matchAt (r : Regex) : ∀ (pre sfx : List Nat) (prev : Option Nat),
    (matchAt r (prevAfter prev pre) sfx).isSome = true →
    (exec r prev (pre ++ sfx)).isSome = true := by
  intro pre
  induction pre with
  | nil =>
    intro sfx prev h
    simp only [prevAfter, List.getLast?_nil, List.nil_append] at *
    cases sfx with
    | nil => simpa [exec] using h
    | cons a t =>
      simp only [exec]
      cases hm : matchAt r prev (a :: t) with
      | none => rw [hm] at h; simp at h
      | some v => rfl
  | cons a t ih =>
    intro sfx prev h
    simp only [List.cons_append, exec]
    cases hm : matchAt r prev (a :: (t ++ sfx)) with
    | some v => rfl
    | none =>
      rw [prevAfter_cons] at h
      have := ih sfx (some a) h
      cases he : exec r (some a) (t ++ sfx) with
      | none => rw [he] at this; simp at this
      | some v => rfl

/-! ### Greedy repetition of a class -/

theorem repeatMatcher_succ (m : Cont → Cont) (k min : Nat) (c : Cont) (x : State) :
    repeatMatcher m (k + 1) min c x =
      if min ≠ 0 then
        m (fun y => if min = 0 ∧ y.rest.length = x.rest.length then none
          else repeatMatcher m k (min - 1) c y) x
      else
        match m (fun y => if min = 0 ∧ y.rest.length = x.rest.length then none
          else repeatMatcher m k (min - 1) c y) x with
        | some z => some z
        | none => c x := rfl

theorem matcher_cls_cons (p : Nat → Bool) (d : Cont) (prev : Option Nat) (a : Nat)
    (rest : List Nat) :
    matcher (.cls p) d ⟨prev, a :: rest⟩ = if p a = true then d ⟨some a, rest⟩ else none := rfl

theorem matcher_cls_nil (p : Nat → Bool) (d : Cont) (prev : Option Nat) :
    matcher (.cls p) d ⟨prev, []⟩ = none := rfl

/-- A greedy repetition of a class that can take the whole word `w`, and no
more, hands the state after `w` to its continuation first. -/
theorem repeat_cls_top (p : Nat → Bool) (c : Cont) (z : State) (post : List Nat) :
    ∀ (w : List Nat) (max min : Nat) (prev : Option Nat),
      (∀ a ∈ w, p a = true) → min ≤ w.length → w.length ≤ max →
      (w.length = max ∨ ∀ a, post.head? = some a → p a = false) →
      c ⟨prevAfter prev w, post⟩ = some z →
      repeatMatcher (matcher (.cls p)) max min c ⟨prev, w ++ post⟩ = some z := by
  intro w
  induction w with
  | nil =>
    intro max min prev _ hmin _ hstop hc
    have hmin0 : min = 0 := by simpa using hmin
    subst hmin0
    cases max with
    | zero => simpa [repeatMatcher, prevAfter] using hc
    | succ k =>
      have hp : ∀ a, post.head? = some a → p a = false := by
        rcases hstop with h | h
        · simp at h
        · exact h
      rw [repeatMatcher_succ]
      simp only [List.nil_append, ne_eq, not_true_eq_false, if_false]
      cases post with
      | nil => rw [matcher_cls_nil]; simpa [prevAfter] using hc
      | cons a t =>
        have := hp a rfl
        rw [matcher_cls_cons]
        simp only [this, Bool.false_eq_true, if_false]
        simpa [prevAfter] using hc
  | cons a t ih =>
    intro max min prev hp hmin hmax hstop hc
    cases max with
    | zero => simp at hmax
    | succ k =>
      have hpa : p a = true := hp a (List.mem_cons_self _ _)
      have hrec : repeatMatcher (matcher (.cls p)) k (min - 1) c ⟨some a, t ++ post⟩ = some z := by
        apply ih k (min - 1) (some a)
        · intro b hb; exact hp b (List.mem_cons_of_mem _ hb)
        · simp at hmin; omega
        · simp at hmax; omega
        · rcases hstop with h | h
          · left; simp at h; omega
          · right; exact h
        · rw [← prevAfter_cons]; exact hc
      rw [repeatMatcher_succ]
      simp only [List.cons_append]
      rw [matcher_cls_cons]
      have hne : ¬ (min = 0 ∧ (t ++ post).length = (a :: (t ++ post)).length) := by
        simp
      simp only [hpa, if_true, hne, if_false, hrec]
      split <;> rfl

theorem head_append_of_ne_nil (w post : List Nat) (h : w ≠ []) :
    (w ++ post).head? = w.head? := by
  cases w with
  | nil => exact absurd rfl h
  | cons a t => rfl

theorem isWordAt_head_of_all (p : Nat → Bool) (hp : ∀ c, p c = true → isWordChar c = true)
    (w : List Nat) (h : w ≠ []) (hw : ∀ c ∈ w, p c = true) : isWordAt w.head? = true := by
  cases w with
  | nil => exact absurd rfl h
  | cons a t => exact hp a (hw a (List.mem_cons_self _ _))

theorem isWordAt_last_of_all (p : Nat → Bool) (hp : ∀ c, p c = true → isWordChar c = true)
    (prev : Option Nat) (w : List Nat) (h : w ≠ []) (hw : ∀ c ∈ w, p c = true) :
    isWordAt (prevAfter prev w) = true := by
  obtain ⟨u, c, rfl⟩ : ∃ u c, w = u ++ [c] := by
    induction w with
    | nil => exact absurd rfl h
    | cons a t ih =>
      cases t with
      | nil => exact ⟨[], a, rfl⟩
      | cons b t2 =>
        obtain ⟨u, c, hu⟩ := ih (by simp) (fun c hc => hw c (List.mem_cons_of_mem _ hc))
        exact ⟨a :: u, c, by rw [hu]; rfl⟩
  rw [prevAfter_concat]
  exact hp c (hw c (by simp))

/-- The pattern `\b[class]{min,max}\b` matches at a word of the class that is
delimited by word boundaries and has an admissible length. -/
theorem matcher_bounded_run (p : Nat → Bool) (hp : ∀ c, p c = true → isWordChar c = true)
    (min max : Nat) (prev : Option Nat) (w post : List Nat)
    (hw : ∀ c ∈ w, p c = true) (hne : w ≠ []) (hmin : min ≤ w.length) (hmax : w.length ≤ max)
    (hl : isWordAt prev = false) (hr : isWordAt post.head? = false) :
    matcher (.seq .wordBoundary (.seq (.rep (.cls p) min (some max)) .wordBoundary)) some
        ⟨prev, w ++ post⟩ = some ⟨prevAfter prev w, post⟩ := by
  have h1 : isWordAt (w ++ post).head? = true := by
    rw [head_append_of_ne_nil _ _ hne]; exact isWordAt_head_of_all p hp w hne hw
  have h2 : isWordAt (prevAfter prev w) = true := isWordAt_last_of_all p hp prev w hne hw
  simp only [matcher, hl, h1, Option.getD_some]
  simp only [bne_iff_ne, ne_eq, Bool.false_eq_true, not_false_eq_true, if_true]
  apply repeat_cls_top p _ _ post w max min prev hw hmin hmax
  · right
    intro a ha
    rw [ha] at hr
    cases hpa : p a with
    | false => rfl
    | true =>
      have := hp a hpa
      simp only [isWordAt] at hr
      rw [this] at hr
      exact absurd hr (by simp)
  · simp [h2, hr]

/-! ### Character classes -/

theorem ignoreCase_alnum (c : Nat) : ignoreCase isUpperAlnum c = isAlnum c := by
  rw [Bool.eq_iff_iff]
  simp only [ignoreCase, canonicalize, isUpperAlnum, isAlnum, isLetter, isUpper, isLower,
    isDigit, Bool.and_eq_true, decide_eq_true_eq, Bool.or_eq_true]
  split <;> omega

theorem ignoreCase_vin (c : Nat) : ignoreCase isUpperVin c = isVinChar c := by
  rw [Bool.eq_iff_iff]
  simp only [ignoreCase, canonicalize, isUpperVin, isVinChar, isAlnum, isLetter, isUpper,
    isLower, isDigit, Bool.and_eq_true, decide_eq_true_eq, Bool.or_eq_true, beq_iff_eq,
    Bool.not_eq_true', Bool.or_eq_false_iff, beq_eq_false_iff_ne, ne_eq]
  split <;> omega

theorem isWordChar_of_alnum (c : Nat) (h : isAlnum c = true) : isWordChar c = true := by
  simp only [isAlnum, isLetter, isWordChar, Bool.or_eq_true] at *
  tauto

theorem isWordChar_of_ci_alnum (c : Nat) (h : ignoreCase isUpperAlnum c = true) :
    isWordChar c = true := by
  rw [ignoreCase_alnum] at h
  exact isWordChar_of_alnum c h

theorem isAlnum_of_vin (c : Nat) (h : isVinChar c = true) : isAlnum c = true := by
  simp only [isVinChar, Bool.and_eq_true] at h
  exact h.1

theorem isUpper_canonicalize (c : Nat) : isUpper (canonicalize c) = isLetter c := by
  rw [Bool.eq_iff_iff]
  simp only [canonicalize, isLetter, isUpper, isLower, Bool.and_eq_true, decide_eq_true_eq,
    Bool.or_eq_true]
  split <;> omega

theorem canonicalize_of_upperAlnum (c : Nat) (h : isUpperAlnum c = true) :
    canonicalize c = c := by
  simp only [canonicalize, isUpperAlnum, isUpper, isLower, isDigit, Bool.and_eq_true,
    decide_eq_true_eq, Bool.or_eq_true] at *
  split <;> omega

theorem toUpperCase_of_identifier (s : JSString) (h : ∀ c ∈ s, isUpperAlnum c = true) :
    toUpperCase s = s := by
  induction s with
  | nil => rfl
  | cons a t ih =>
    simp only [toUpperCase, List.map_cons, List.cons.injEq]
    exact ⟨canonicalize_of_upperAlnum a (h a (List.mem_cons_self _ _)),
      ih (fun c hc => h c (List.mem_cons_of_mem _ hc))⟩

theorem prevAfter_none (l : List Nat) : prevAfter none l = l.getLast? := by
  simp only [prevAfter]
  cases l.getLast? <;> rfl

/-! ### The loop over the general matches -/

theorem test_reLetter (m : JSString) : test reLetter m = true ↔ ∃ c ∈ m, isUpper c = true := by
  simp only [test, reLetter]
  constructor
  · intro h
    cases he : exec (.cls isUpper) none m with
    | none => rw [he] at h; simp at h
    | some mt =>
      obtain ⟨ch, -, h2, -, h5, -⟩ := exec_cls_some _ _ _ _ he
      exact ⟨ch, by rw [h2]; simp, h5⟩
  · rintro ⟨c, hc, hu⟩
    cases he : exec (.cls isUpper) none m with
    | some mt => rfl
    | none =>
      have := exec_cls_none _ _ _ he
      have hmem : c ∈ m.filter (fun c => !isUpper c) := by rw [this]; exact hc
      simp [hu] at hmem

theorem wf_reAllDigits : WF reAllDigits := by simp [reAllDigits, WF]
theorem wf_reEightDigits : WF reEightDigits := by simp [reEightDigits, WF]

theorem isDigit_not_upper (c : Nat) (h : isDigit c = true) : isUpper c = false := by
  simp only [isDigit, isUpper, Bool.and_eq_true, decide_eq_true_eq, Bool.and_eq_false_iff,
    decide_eq_false_iff_not] at *
  omega

/-- A string that `/^\d{min,max}$/` accepts consists of digits only. -/
theorem test_digits (min : Nat) (max : Option Nat) (hle : ∀ k, max = some k → min ≤ k)
    (m : JSString)
    (h : test (.seq .bol (.seq (.rep (.cls isDigit) min max) .eol)) m = true) :
    ∀ c ∈ m, isDigit c = true := by
  simp only [test] at h
  cases he : exec (.seq .bol (.seq (.rep (.cls isDigit) min max) .eol)) none m with
  | none => rw [he] at h; simp at h
  | some mt =>
    obtain ⟨h1, -, hsem⟩ := exec_sem _ (by simp [WF]; exact hle) _ _ _ he
    obtain ⟨x1, ⟨hb, hx1⟩, y1, ⟨n, -, -, hit⟩, ⟨hend, hy1⟩⟩ := hsem
    subst hx1
    subst hy1
    simp only at hb hend
    obtain ⟨w, ⟨ho, -⟩, -, hp⟩ := iter_cls _ n _ _ hit
    simp only at ho
    have hbefore : mt.before = [] := by
      cases hb2 : mt.before with
      | nil => rfl
      | cons a t =>
        rw [hb2, prevAfter_cons] at hb
        obtain ⟨u, c, hu⟩ : ∃ u c, a :: t = u ++ [c] :=
          ⟨(a :: t).dropLast, (a :: t).getLast (by simp),
            (List.dropLast_append_getLast _).symm⟩
        rw [← prevAfter_cons none, hu, prevAfter_concat] at hb
        simp at hb
    have ht := List.append_cancel_right ho
    rw [h1, hbefore, hend, ht]
    simpa using hp

theorem firstGeneral_skip (mt : JSString) (rest : List JSString)
    (h : ∀ c ∈ mt, isLetter c = false) :
    firstGeneral (mt :: rest) = firstGeneral rest := by
  have hl : test reLetter (toUpperCase mt) = false := by
    cases ht : test reLetter (toUpperCase mt) with
    | false => rfl
    | true =>
      obtain ⟨c, hc, hu⟩ := (test_reLetter _).1 ht
      simp only [toUpperCase, List.mem_map] at hc
      obtain ⟨a, ha, rfl⟩ := hc
      rw [isUpper_canonicalize, h a ha] at hu
      exact absurd hu (by simp)
  simp only [firstGeneral, hl]
  split <;> rfl

theorem firstGeneral_take (mt : JSString) (rest : List JSString)
    (h : ∃ c ∈ mt, isLetter c = true) :
    firstGeneral (mt :: rest) = some (toUpperCase mt) := by
  obtain ⟨c, hc, hlet⟩ := h
  have hmem : canonicalize c ∈ toUpperCase mt := List.mem_map_of_mem _ hc
  have hup : isUpper (canonicalize c) = true := by rw [isUpper_canonicalize]; exact hlet
  have hl : test reLetter (toUpperCase mt) = true := (test_reLetter _).2 ⟨_, hmem, hup⟩
  have h1 : test reAllDigits (toUpperCase mt) = false := by
    cases ht : test reAllDigits (toUpperCase mt) with
    | false => rfl
    | true =>
      have := test_digits 1 none (by simp) _ ht _ hmem
      rw [isDigit_not_upper _ this] at hup
      exact absurd hup (by simp)
  have h2 : test reEightDigits (toUpperCase mt) = false := by
    cases ht : test reEightDigits (toUpperCase mt) with
    | false => rfl
    | true =>
      have := test_digits 8 (some 8) (by simp) _ ht _ hmem
      rw [isDigit_not_upper _ this] at hup
      exact absurd hup (by simp)
  simp [firstGeneral, hl, h1, h2]

/-! ### Searching for a word-bounded run -/

theorem reVin_eq : reVin = boundedRun (ignoreCase isUpperVin) 17 := rfl

theorem reGeneral_eq : reGeneral = boundedRun (ignoreCase isUpperAlnum) 8 := rfl

theorem isWordAt_false_of_ne_true (a b : Bool) (h : a ≠ b) (hb : b = true) : a = false := by
  cases a <;> cases b <;> simp_all

theorem isWordAt_false_of_true_ne (a b : Bool) (h : a ≠ b) (ha : a = true) : b = false := by
  cases a <;> cases b <;> simp_all

/-- What a search for `\b[class]{min,17}\b` returns is a run. -/
theorem exec_run (p : Nat → Bool) (hp : ∀ c, p c = true → isWordChar c = true)
    (min : Nat) (h1 : 1 ≤ min) (h17 : min ≤ 17)
    (rest : List Nat) (prev : Option Nat) (mt : Match)
    (h : exec (boundedRun p min) prev rest = some mt) :
    rest = mt.before ++ mt.text ++ mt.after.rest ∧
      RunAt p min prev mt.before mt.text mt.after.rest ∧
      mt.after.prev = prevAfter prev (mt.before ++ mt.text) ∧ mt.text ≠ [] := by
  obtain ⟨e1, e2, e3, e4, e5, e6, e7⟩ := exec_bounded_run p min 17 h17 rest prev mt h
  have hne : mt.text ≠ [] := by
    intro h0
    rw [h0] at e2
    simp at e2
    omega
  refine ⟨e1, ⟨e4, e2, e3, ?_, ?_⟩, e5, hne⟩
  · apply isWordAt_false_of_ne_true _ _ e6
    rw [head_append_of_ne_nil _ _ hne]
    exact isWordAt_head_of_all p hp _ hne e4
  · apply isWordAt_false_of_true_ne _ _ e7
    rw [e5, prevAfter_append]
    exact isWordAt_last_of_all p hp _ _ hne e4

/-- Two runs that start at the same place are the same run. -/
theorem run_unique (p : Nat → Bool) (hp : ∀ c, p c = true → isWordChar c = true)
    (t w r1 r2 : List Nat) (h : t ++ r1 = w ++ r2)
    (ht : ∀ c ∈ t, p c = true) (hw : ∀ c ∈ w, p c = true)
    (h1 : isWordAt r1.head? = false) (h2 : isWordAt r2.head? = false) :
    t = w ∧ r1 = r2 := by
  rcases List.append_eq_append_iff.1 h with ⟨d, hd1, hd2⟩ | ⟨d, hd1, hd2⟩
  · cases d with
    | nil => simp at hd1 hd2; exact ⟨hd1.symm, hd2⟩
    | cons a u =>
      exfalso
      rw [hd2] at h1
      have := hp a (hw a (by rw [hd1]; simp))
      simp [isWordAt, this] at h1
  · cases d with
    | nil => simp at hd1 hd2; exact ⟨hd1, hd2.symm⟩
    | cons a u =>
      exfalso
      rw [hd2] at h2
      have := hp a (ht a (by rw [hd1]; simp))
      simp [isWordAt, this] at h2

theorem prevAfter_of_ne_nil (prev : Option Nat) (u v : List Nat) (h : v ≠ []) :
    prevAfter prev (u ++ v) = prevAfter none v := by
  obtain ⟨d, c, hd⟩ : ∃ d c, v = d ++ [c] :=
    ⟨v.dropLast, v.getLast h, (List.dropLast_append_getLast h).symm⟩
  rw [hd, ← List.append_assoc, prevAfter_concat, prevAfter_concat]

/-- A search for `\b[class]{min,17}\b` in a text that has a run after `pre`
returns that run, or an earlier run that ends within `pre`. -/
theorem exec_run_before (p : Nat → Bool) (hp : ∀ c, p c = true → isWordChar c = true)
    (min : Nat) (h1 : 1 ≤ min) (h17 : min ≤ 17)
    (prev : Option Nat) (pre w post : List Nat) (hrun : RunAt p min prev pre w post) :
    ∃ mt, exec (boundedRun p min) prev (pre ++ w ++ post) = some mt ∧
      ((mt.before = pre ∧ mt.text = w ∧ mt.after = ⟨prevAfter prev (pre ++ w), post⟩) ∨
       (∃ d, pre = mt.before ++ mt.text ++ d ∧ mt.after.rest = d ++ w ++ post ∧
          RunAt p min prev mt.before mt.text mt.after.rest ∧
          mt.after.prev = prevAfter prev (mt.before ++ mt.text) ∧ mt.text ≠ [])) := by
  obtain ⟨hw, hmin, hmax, hl, hr⟩ := hrun
  have hne : w ≠ [] := by
    intro h0; rw [h0] at hmin; simp at hmin; omega
  have hat : matcher (boundedRun p min) some ⟨prevAfter prev pre, w ++ post⟩ =
      some ⟨prevAfter (prevAfter prev pre) w, post⟩ :=
    matcher_bounded_run p hp min 17 _ w post hw hne hmin hmax hl hr
  have hat2 : matchAt (boundedRun p min) (prevAfter prev pre) (w ++ post) =
      some ⟨[], w, ⟨prevAfter (prevAfter prev pre) w, post⟩⟩ := by
    simp only [matchAt, hat]
    simp
  have hsome : (exec (boundedRun p min) prev (pre ++ w ++ post)).isSome = true := by
    rw [List.append_assoc]
    apply exec_of_matchAt
    rw [hat2]; rfl
  cases he : exec (boundedRun p min) prev (pre ++ w ++ post) with
  | none => rw [he] at hsome; simp at hsome
  | some mt =>
    refine ⟨mt, rfl, ?_⟩
    obtain ⟨e1, erun, e3, e4⟩ := exec_run p hp min h1 h17 _ _ _ he
    obtain ⟨r1, r2, r3, r4, r5⟩ := erun
    have e1b : pre ++ (w ++ post) = mt.before ++ (mt.text ++ mt.after.rest) := by
      simpa [List.append_assoc] using e1
    rcases List.append_eq_append_iff.1 e1b with ⟨a, ha1, ha2⟩ | ⟨a, ha1, ha2⟩
    · -- the match starts at or after the run
      cases a with
      | nil =>
        left
        simp only [List.append_nil, List.nil_append] at ha1 ha2
        obtain ⟨u1, u2⟩ := run_unique p hp _ _ _ _ ha2 hw r1 hr r5
        refine ⟨ha1, u1.symm, ?_⟩
        cases hm : mt.after with
        | mk ap ar =>
          rw [hm] at e3 u2
          simp only at e3 u2
          rw [e3, ← u2, ha1, ← u1]
      | cons b t =>
        exfalso
        have := exec_leftmost _ _ _ _ he pre (b :: t) ha1 (by simp)
          (mt.text ++ mt.after.rest) (by simpa [List.append_assoc] using e1)
        rw [← ha2, hat2] at this
        exact absurd this (by simp)
    · -- the match starts before the run
      cases a with
      | nil =>
        left
        simp only [List.append_nil, List.nil_append] at ha1 ha2
        obtain ⟨u1, u2⟩ := run_unique p hp _ _ _ _ ha2.symm hw r1 hr r5
        refine ⟨ha1.symm, u1.symm, ?_⟩
        cases hm : mt.after with
        | mk ap ar =>
          rw [hm] at e3 u2
          simp only at e3 u2
          rw [e3, ← u2, ← ha1, ← u1]
      | cons b t =>
        right
        -- pre = before ++ (b :: t), text ++ after.rest = (b :: t) ++ (w ++ post)
        rcases List.append_eq_append_iff.1 ha2 with ⟨d, hd1, hd2⟩ | ⟨d, hd1, hd2⟩
        · -- b :: t = text ++ d
          refine ⟨d, ?_, ?_, ⟨r1, r2, r3, r4, r5⟩, e3, e4⟩
          · rw [ha1, hd1, List.append_assoc]
          · rw [hd2, List.append_assoc]
        · -- text = (b :: t) ++ d : the run would start inside the match
          exfalso
          have hlast : isWordAt (prevAfter prev pre) = true := by
            rw [ha1, prevAfter_of_ne_nil prev mt.before (b :: t) (by simp)]
            apply isWordAt_last_of_all p hp none (b :: t) (by simp)
            intro c hc
            exact r1 c (by rw [hd1]; exact List.mem_append_left _ hc)
          rw [hl] at hlast
          exact absurd hlast (by simp)

/-! ### The general fallback -/

/-- Every global match of `\b[class]{min,17}\b` is a run of the text. -/
theorem matchAllFrom_run (p : Nat → Bool) (hp : ∀ c, p c = true → isWordChar c = true)
    (min : Nat) (h1 : 1 ≤ min) (h17 : min ≤ 17) :
    ∀ (fuel : Nat) (prev : Option Nat) (rest : List Nat) (t : JSString),
      t ∈ matchAllFrom (boundedRun p min) fuel prev rest →
      ∃ u q, rest = u ++ t ++ q ∧ RunAt p min prev u t q := by
  intro fuel
  induction fuel with
  | zero => intro prev rest t h; simp [matchAllFrom] at h
  | succ k ih =>
    intro prev rest t h
    simp only [matchAllFrom] at h
    cases he : exec (boundedRun p min) prev rest with
    | none => simp [he] at h
    | some mt =>
      obtain ⟨e1, erun, e3, e4⟩ := exec_run p hp min h1 h17 _ _ _ he
      simp only [he, List.mem_cons] at h
      have hemp : mt.text.isEmpty = false := by
        cases hm : mt.text with
        | nil => exact absurd hm e4
        | cons a b => rfl
      simp only [hemp, Bool.false_eq_true, if_false] at h
      rcases h with h | h
      · subst h
        exact ⟨mt.before, mt.after.rest, e1, erun⟩
      · obtain ⟨u, q, hu, r1, r2, r3, r4, r5⟩ := ih _ _ _ h
        refine ⟨mt.before ++ mt.text ++ u, q, ?_, r1, r2, r3, ?_, r5⟩
        · rw [e1, hu]; simp [List.append_assoc]
        · rw [prevAfter_append, ← e3]; exact r4

/-- The loop over the general matches returns the leftmost run with a letter,
upper-cased, when every run before it is without a letter. -/
theorem firstGeneral_found : ∀ (n : Nat) (pre w post : List Nat) (prev : Option Nat)
    (fuel : Nat), pre.length ≤ n → (pre ++ w ++ post).length < fuel →
    RunAt (ignoreCase isUpperAlnum) 8 prev pre w post →
    (∃ c ∈ w, isLetter c = true) →
    (∀ u t q, pre ++ w ++ post = u ++ t ++ q → u.length < pre.length →
      RunAt (ignoreCase isUpperAlnum) 8 prev u t q → ∀ c ∈ t, isLetter c = false) →
    firstGeneral (matchAllFrom reGeneral fuel prev (pre ++ w ++ post)) =
      some (toUpperCase w) := by
  intro n
  induction n with
  | zero =>
    intro pre w post prev fuel hn hfuel hrun hlet hleft
    obtain ⟨mt, he, hcase⟩ := exec_run_before _ isWordChar_of_ci_alnum 8 (by omega) (by omega)
      prev pre w post hrun
    have hpre : pre = [] := List.length_eq_zero.1 (by omega)
    cases fuel with
    | zero => omega
    | succ k =>
      rw [reGeneral_eq]
      simp only [matchAllFrom, he]
      rcases hcase with ⟨-, h2, -⟩ | ⟨d, hd, -, -, -, hne⟩
      · rw [h2]
        exact firstGeneral_take _ _ hlet
      · exfalso
        rw [hpre] at hd
        have := congrArg List.length hd
        simp at this
        exact hne (List.length_eq_zero.1 (by omega))
  | succ m ih =>
    intro pre w post prev fuel hn hfuel hrun hlet hleft
    obtain ⟨mt, he, hcase⟩ := exec_run_before _ isWordChar_of_ci_alnum 8 (by omega) (by omega)
      prev pre w post hrun
    cases fuel with
    | zero => omega
    | succ k =>
      rw [reGeneral_eq]
      simp only [matchAllFrom, he]
      rcases hcase with ⟨-, h2, -⟩ | ⟨d, hd, hrest, hrun2, hprev, hne⟩
      · rw [h2]
        exact firstGeneral_take _ _ hlet
      · have hlen : mt.text.length ≠ 0 := fun h0 => hne (List.length_eq_zero.1 h0)
        have hemp : mt.text.isEmpty = false := by
          cases hm : mt.text with
          | nil => exact absurd hm hne
          | cons a b => rfl
        have hno : ∀ c ∈ mt.text, isLetter c = false := by
          apply hleft mt.before mt.text mt.after.rest
          · rw [hrest, hd]; simp [List.append_assoc]
          · rw [hd]; simp; omega
          · exact hrun2
        rw [firstGeneral_skip _ _ hno]
        simp only [hemp, Bool.false_eq_true, if_false]
        rw [hrest, ← reGeneral_eq]
        obtain ⟨r1, r2, r3, r4, r5⟩ := hrun
        apply ih d w post mt.after.prev k
        · have := congrArg List.length hd
          simp at this
          omega
        · have := congrArg List.length hd
          simp at this hfuel ⊢
          omega
        · refine ⟨r1, r2, r3, ?_, r5⟩
          rw [hprev, ← prevAfter_append, ← hd]
          exact r4
        · exact hlet
        · intro u t q hsplit hu hrun3
          apply hleft (mt.before ++ mt.text ++ u) t q
          · rw [hd]
            simp only [List.append_assoc] at hsplit ⊢
            rw [hsplit]
          · rw [hd]; simp; omega
          · obtain ⟨s1, s2, s3, s4, s5⟩ := hrun3
            refine ⟨s1, s2, s3, ?_, s5⟩
            rw [prevAfter_append, ← hprev]
            exact s4

theorem runAt_of_candidate (s pre w post : JSString) (h : IsCandidate s pre w post) :
    s = pre ++ w ++ post ∧ RunAt (ignoreCase isUpperAlnum) 8 none pre w post ∧
      ∃ c ∈ w, isLetter c = true := by
  obtain ⟨⟨h1, -, h3, h4, h5⟩, h6, h7, h8⟩ := h
  refine ⟨h1, ⟨?_, h6, h7, ?_, h5⟩, h8⟩
  · intro c hc; rw [ignoreCase_alnum]; exact h3 c hc
  · rw [prevAfter_none]; exact h4

theorem candidate_of_runAt (s pre w post : JSString) (h1 : s = pre ++ w ++ post)
    (h2 : RunAt (ignoreCase isUpperAlnum) 8 none pre w post)
    (h3 : ∃ c ∈ w, isLetter c = true) : IsCandidate s pre w post := by
  obtain ⟨r1, r2, r3, r4, r5⟩ := h2
  refine ⟨⟨h1, ?_, ?_, ?_, r5⟩, r2, r3, h3⟩
  · intro h0; rw [h0] at r2; simp at r2
  · intro c hc; rw [← ignoreCase_alnum]; exact r1 c hc
  · rw [← prevAfter_none]; exact r4

theorem extract_of_fallthrough (text : JSString) (hne : text ≠ [])
    (h1 : matchFirst reVin (cleanText text) = none)
    (h2 : spacedCandidate (cleanText text) = none) :
    extractChassisNumber text = firstGeneral (matchAll reGeneral (cleanText text)) := by
  have : text.isEmpty = false := by
    cases text with
    | nil => exact absurd rfl hne
    | cons a t => rfl
  simp [extractChassisNumber, this, h1, h2]

/-- C7. When tier 1 finds no match and tier 2 yields no accepted identifier,
`extractChassisNumber` returns the upper-cased leftmost word-bounded
alphanumeric run of length 8 to 17 of the whitespace-normalized text that
contains a letter, and `null` when there is no such run; what it returns then
always contains a letter, so a digits-only run is never selected. -/
theorem general_fallback (text : JSString)
    (h1 : matchFirst reVin (cleanText text) = none)
    (h2 : spacedCandidate (cleanText text) = none) :
    (∀ pre w post, IsCandidate (cleanText text) pre w post →
      (∀ pre2 w2 post2, IsCandidate (cleanText text) pre2 w2 post2 →
        pre.length ≤ pre2.length) →
      extractChassisNumber text = some (toUpperCase w)) ∧
    ((∀ pre w post, ¬ IsCandidate (cleanText text) pre w post) →
      extractChassisNumber text = none) ∧
    (∀ r, extractChassisNumber text = some r → ∃ c ∈ r, isUpper c = true) := by
  by_cases hne : text = []
  · subst hne
    refine ⟨?_, fun _ => rfl, fun r hr => by simp [extractChassisNumber] at hr⟩
    intro pre w post hc
    exfalso
    obtain ⟨⟨hs, -, -⟩, h8, -⟩ := hc
    have hclean : cleanText [] = [] := by decide
    rw [hclean] at hs
    have := congrArg List.length hs
    simp at this
    omega
  · rw [extract_of_fallthrough text hne h1 h2]
    refine ⟨?_, ?_, ?_⟩
    · intro pre w post hc hleft
      obtain ⟨hs, hrun, hlet⟩ := runAt_of_candidate _ _ _ _ hc
      simp only [matchAll]
      rw [hs]
      apply firstGeneral_found pre.length pre w post none _ (le_refl _) (Nat.lt_succ_self _)
        hrun hlet
      intro u t q hsplit hu hrun2 c hct
      cases hl : isLetter c with
      | false => rfl
      | true =>
        exfalso
        have := hleft u t q (candidate_of_runAt _ _ _ _ (hs.trans hsplit) hrun2 ⟨c, hct, hl⟩)
        omega
    · intro hnone
      cases hf : firstGeneral (matchAll reGeneral (cleanText text)) with
      | none => rfl
      | some m =>
        exfalso
        obtain ⟨mt, hmem, hm, hl⟩ := firstGeneral_some _ _ hf
        simp only [matchAll] at hmem
        rw [reGeneral_eq] at hmem
        obtain ⟨u, q, hs, hrun⟩ := matchAllFrom_run _ isWordChar_of_ci_alnum 8 (by omega)
          (by omega) _ _ _ _ hmem
        obtain ⟨c, hc, hu⟩ := (test_reLetter _).1 hl
        rw [hm] at hc
        simp only [toUpperCase, List.mem_map] at hc
        obtain ⟨a, ha, rfl⟩ := hc
        rw [isUpper_canonicalize] at hu
        exact hnone u mt q (candidate_of_runAt _ _ _ _ hs hrun ⟨a, ha, hu⟩)
    · intro r hr
      exact (test_reLetter _).1 (general_isIdentifier _ _ hr).2

theorem general_fallback_witness :
    extractChassisNumber (lit "ABCD1234 IJKL MNOP QRST UVWX") = some (lit "ABCD1234") :=
  (general_fallback (lit "ABCD1234 IJKL MNOP QRST UVWX") (by decide) (by decide)).1
    [] (lit "ABCD1234") (lit " IJKL MNOP QRST UVWX")
    ⟨⟨by decide, by decide, by decide, by decide, by decide⟩, by decide, by decide,
      ⟨65, by decide, by decide⟩⟩
    (fun _ _ _ _ => Nat.zero_le _)

/-! ### The matcher only looks at character classes -/

theorem isWordAt_image (f : Nat → Nat) (hw : ∀ c, isWordChar (f c) = isWordChar c)
    (o : Option Nat) : isWordAt (o.map f) = isWordAt o := by
  cases o with
  | none => rfl
  | some c => exact hw c

theorem repeatMatcher_image (f : Nat → Nat) (m : Cont → Cont)
    (hm : ∀ (c c2 : Cont), (∀ y, (c y).map (State.image f) = c2 (y.image f)) →
      ∀ x, (m c x).map (State.image f) = m c2 (x.image f)) :
    ∀ (max min : Nat) (c c2 : Cont), (∀ y, (c y).map (State.image f) = c2 (y.image f)) →
      ∀ x, (repeatMatcher m max min c x).map (State.image f) =
        repeatMatcher m max min c2 (x.image f) := by
  intro max
  induction max with
  | zero => intro min c c2 hc x; simpa [repeatMatcher] using hc x
  | succ k ih =>
    intro min c c2 hc x
    rw [repeatMatcher_succ, repeatMatcher_succ]
    have hd : ∀ y, ((fun y => if min = 0 ∧ y.rest.length = x.rest.length then none
          else repeatMatcher m k (min - 1) c y) y).map (State.image f) =
        (fun y => if min = 0 ∧ y.rest.length = (x.image f).rest.length then none
          else repeatMatcher m k (min - 1) c2 y) (y.image f) := by
      intro y
      simp only [State.image, List.length_map]
      split
      · rfl
      · exact ih (min - 1) c c2 hc y
    have hstep := hm (fun y => if min = 0 ∧ y.rest.length = x.rest.length then none
          else repeatMatcher m k (min - 1) c y)
        (fun y => if min = 0 ∧ y.rest.length = (x.image f).rest.length then none
          else repeatMatcher m k (min - 1) c2 y) hd x
    by_cases hmin : min ≠ 0
    · rw [if_pos hmin, if_pos hmin]
      exact hstep
    · rw [if_neg hmin, if_neg hmin, ← hstep]
      cases hmx : m (fun y => if min = 0 ∧ y.rest.length = x.rest.length then none
          else repeatMatcher m k (min - 1) c y) x with
      | none => simpa using hc x
      | some z => rfl

/-- Replacing every code unit by a representative of its classes does not
change the course of the matcher. -/
theorem matcher_image (f : Nat → Nat) (hw : ∀ c, isWordChar (f c) = isWordChar c) :
    ∀ (r : Regex), ClassesRespect f r →
      ∀ (c c2 : Cont), (∀ y, (c y).map (State.image f) = c2 (y.image f)) →
      ∀ x, (matcher r c x).map (State.image f) = matcher r c2 (x.image f) := by
  intro r
  induction r with
  | empty => intro _ c c2 hc x; exact hc x
  | cls p =>
    intro hp c c2 hc x
    obtain ⟨prev, rest⟩ := x
    cases rest with
    | nil => rfl
    | cons ch cs =>
      simp only [State.image, List.map_cons]
      rw [matcher_cls_cons, matcher_cls_cons, hp ch]
      split
      · exact hc ⟨some ch, cs⟩
      · rfl
  | bol =>
    intro _ c c2 hc x
    simp only [matcher]
    have : (x.image f).prev.isNone = x.prev.isNone := by
      simp only [State.image]; cases x.prev <;> rfl
    rw [this]
    split
    · exact hc x
    · rfl
  | eol =>
    intro _ c c2 hc x
    simp only [matcher]
    have : (x.image f).rest.isEmpty = x.rest.isEmpty := by
      simp only [State.image]; cases x.rest <;> rfl
    rw [this]
    split
    · exact hc x
    · rfl
  | wordBoundary =>
    intro _ c c2 hc x
    simp only [matcher]
    have h1 : isWordAt (x.image f).prev = isWordAt x.prev := isWordAt_image f hw _
    have h2 : isWordAt (x.image f).rest.head? = isWordAt x.rest.head? := by
      simp only [State.image]
      cases x.rest with
      | nil => rfl
      | cons a t => exact hw a
    rw [h1, h2]
    split
    · exact hc x
    · rfl
  | seq a b iha ihb =>
    intro hr c c2 hc x
    simp only [matcher]
    exact iha hr.1 _ _ (fun y => ihb hr.2 c c2 hc y) x
  | alt a b iha ihb =>
    intro hr c c2 hc x
    simp only [matcher]
    rw [← iha hr.1 c c2 hc x, ← ihb hr.2 c c2 hc x]
    cases matcher a c x <;> rfl
  | rep r min max ih =>
    intro hr c c2 hc x
    simp only [matcher]
    have : (x.image f).rest.length = x.rest.length := by simp [State.image]
    rw [this]
    exact repeatMatcher_image f (matcher r) (fun c c2 hc x => ih hr c c2 hc x) _ _ c c2 hc x

theorem matchAt_image (f : Nat → Nat) (hw : ∀ c, isWordChar (f c) = isWordChar c)
    (r : Regex) (hr : ClassesRespect f r) (prev : Option Nat) (rest : List Nat) :
    (matchAt r prev rest).map (Match.image f) = matchAt r (prev.map f) (rest.map f) := by
  have h := matcher_image f hw r hr some some (fun y => rfl) ⟨prev, rest⟩
  simp only [matchAt]
  simp only [State.image] at h
  rw [← h]
  cases matcher r some ⟨prev, rest⟩ with
  | none => rfl
  | some e => simp [Match.image, State.image, List.map_take]

theorem exec_image (f : Nat → Nat) (hw : ∀ c, isWordChar (f c) = isWordChar c)
    (r : Regex) (hr : ClassesRespect f r) : ∀ (rest : List Nat) (prev : Option Nat),
    (exec r prev rest).map (Match.image f) = exec r (prev.map f) (rest.map f) := by
  intro rest
  induction rest with
  | nil => intro prev; simpa [exec] using matchAt_image f hw r hr prev []
  | cons a t ih =>
    intro prev
    simp only [exec, List.map_cons]
    have h1 := matchAt_image f hw r hr prev (a :: t)
    simp only [List.map_cons] at h1
    rw [← h1]
    cases hm : matchAt r prev (a :: t) with
    | some mt => rfl
    | none =>
      simp only [Option.map_none']
      have h2 := ih (some a)
      simp only [Option.map_some'] at h2
      rw [← h2]
      cases exec r (some a) t with
      | none => rfl
      | some mt => simp [Match.image]

/-! ### White-space normalization -/

theorem collapseAux_true (cs : List Nat) :
    collapseAux true cs = collapseAux false (cs.dropWhile isWhiteSpace) := by
  induction cs with
  | nil => rfl
  | cons c t ih =>
    by_cases h : isWhiteSpace c = true
    · simp [collapseAux, h, List.dropWhile, ih]
    · simp [collapseAux, h, List.dropWhile]

theorem head_dropWhile (p : Nat → Bool) (l : List Nat) (a : Nat)
    (h : (l.dropWhile p).head? = some a) : p a = false := by
  induction l with
  | nil => simp at h
  | cons c t ih =>
    by_cases hc : p c = true
    · simp only [List.dropWhile, hc] at h; exact ih h
    · simp only [List.dropWhile, hc] at h
      simp at h
      subst h
      simpa using hc

theorem matchAt_reSpaces_nil (prev : Option Nat) : matchAt reSpaces prev [] = none := by
  simp [matchAt, reSpaces, matcher, repeatMatcher_succ]

theorem matcher_reSpaces (prev : Option Nat) (rest : List Nat) :
    matcher reSpaces some ⟨prev, rest⟩ =
      repeatMatcher (matcher (.cls isWhiteSpace)) (rest.length + 1) 1 some ⟨prev, rest⟩ := by
  simp only [reSpaces, matcher, Option.getD_none]
  rw [Nat.add_comm]

theorem matchAt_reSpaces_other (prev : Option Nat) (c : Nat) (cs : List Nat)
    (h : isWhiteSpace c = false) : matchAt reSpaces prev (c :: cs) = none := by
  have : matcher reSpaces some ⟨prev, c :: cs⟩ = none := by
    rw [matcher_reSpaces, repeatMatcher_succ, if_pos (by decide), matcher_cls_cons, h]
    simp
  simp [matchAt, this]

theorem matchAt_reSpaces_space (prev : Option Nat) (c : Nat) (cs : List Nat)
    (h : isWhiteSpace c = true) :
    matchAt reSpaces prev (c :: cs) =
      some ⟨[], c :: cs.takeWhile isWhiteSpace,
        ⟨prevAfter prev (c :: cs.takeWhile isWhiteSpace), cs.dropWhile isWhiteSpace⟩⟩ := by
  have hsplit : c :: cs = (c :: cs.takeWhile isWhiteSpace) ++ cs.dropWhile isWhiteSpace := by
    simp [List.takeWhile_append_dropWhile]
  have hlen : (cs.takeWhile isWhiteSpace).length + (cs.dropWhile isWhiteSpace).length
      = cs.length := by
    have := congrArg List.length (List.takeWhile_append_dropWhile isWhiteSpace cs)
    rw [List.length_append] at this
    exact this
  have : matcher reSpaces some ⟨prev, c :: cs⟩ =
      some ⟨prevAfter prev (c :: cs.takeWhile isWhiteSpace), cs.dropWhile isWhiteSpace⟩ := by
    rw [matcher_reSpaces]
    conv_lhs => rw [hsplit]
    apply repeat_cls_top
    · intro a ha
      rcases List.mem_cons.1 ha with h1 | h1
      · rw [h1]; exact h
      · exact (List.mem_takeWhile_imp h1)
    · simp
    · simp only [List.length_cons, List.cons_append, List.length_append]; omega
    · right; intro a ha; exact head_dropWhile _ _ _ ha
    · rfl
  simp only [matchAt, this]
  rw [take_over _ _ _ hsplit]

theorem replaceAllFrom_skip (r : Regex) (by_ : JSString) (fuel : Nat) (prev : Option Nat)
    (c : Nat) (cs : List Nat) (h : matchAt r prev (c :: cs) = none) :
    replaceAllFrom r by_ (fuel + 1) prev (c :: cs) =
      c :: replaceAllFrom r by_ (fuel + 1) (some c) cs := by
  simp only [replaceAllFrom, exec, h]
  cases exec r (some c) cs with
  | none => rfl
  | some mt => simp

theorem replaceAllFrom_reSpaces : ∀ (n : Nat) (rest : List Nat) (fuel : Nat)
    (prev : Option Nat), rest.length ≤ n → rest.length < fuel →
    replaceAllFrom reSpaces [32] fuel prev rest = collapseAux false rest := by
  intro n
  induction n with
  | zero =>
    intro rest fuel prev hn hf
    have : rest = [] := List.length_eq_zero.1 (by omega)
    subst this
    cases fuel with
    | zero => omega
    | succ k => simp [replaceAllFrom, exec, matchAt_reSpaces_nil, collapseAux]
  | succ m ih =>
    intro rest fuel prev hn hf
    cases fuel with
    | zero => omega
    | succ k =>
      cases rest with
      | nil => simp [replaceAllFrom, exec, matchAt_reSpaces_nil, collapseAux]
      | cons c cs =>
        cases hc : isWhiteSpace c with
        | false =>
          rw [replaceAllFrom_skip _ _ _ _ _ _ (matchAt_reSpaces_other prev c cs hc)]
          simp only [collapseAux, hc, Bool.false_eq_true, if_false, List.cons.injEq, true_and]
          apply ih
          · simp at hn; omega
          · simp at hf ⊢; omega
        | true =>
          simp only [replaceAllFrom, exec, matchAt_reSpaces_space prev c cs hc,
            List.isEmpty_cons, Bool.false_eq_true, if_false, List.nil_append]
          simp only [collapseAux, hc, if_true, Bool.false_eq_true, if_false, List.singleton_append,
            List.cons.injEq, true_and]
          rw [collapseAux_true]
          have hle : (cs.dropWhile isWhiteSpace).length ≤ cs.length :=
            (List.dropWhile_sublist _).length_le
          apply ih
          · simp at hn; omega
          · simp at hf; omega

theorem replaceAll_reSpaces (s : JSString) :
    replaceAll reSpaces [32] s = collapseAux false s :=
  replaceAllFrom_reSpaces s.length s _ none (le_refl _) (Nat.lt_succ_self _)

theorem cleanText_eq (s : JSString) : cleanText s = trim (collapseAux false s) := by
  simp [cleanText, replaceAll_reSpaces]

/-! ### Matching a whole string -/

theorem isWordChar_classOf (c : Nat) : isWordChar (classOf c) = isWordChar c := by
  rw [Bool.eq_iff_iff]
  simp only [classOf, isAlnum, isLetter, isSpaceOrHyphen, isWhiteSpace, isWordChar, isUpper,
    isLower, isDigit, Bool.or_eq_true, Bool.and_eq_true, decide_eq_true_eq, beq_iff_eq]
  split
  · omega
  · split
    · omega
    · split <;> omega

theorem isAlnum_classOf (c : Nat) : isAlnum (classOf c) = isAlnum c := by
  rw [Bool.eq_iff_iff]
  simp only [classOf, isAlnum, isLetter, isSpaceOrHyphen, isWhiteSpace, isUpper,
    isLower, isDigit, Bool.or_eq_true, Bool.and_eq_true, decide_eq_true_eq, beq_iff_eq]
  split
  · omega
  · split
    · omega
    · split <;> omega

theorem isSpaceOrHyphen_classOf (c : Nat) :
    isSpaceOrHyphen (classOf c) = isSpaceOrHyphen c := by
  rw [Bool.eq_iff_iff]
  simp only [classOf, isAlnum, isLetter, isSpaceOrHyphen, isWhiteSpace, isUpper,
    isLower, isDigit, Bool.or_eq_true, Bool.and_eq_true, decide_eq_true_eq, beq_iff_eq]
  split
  · omega
  · split
    · omega
    · split <;> omega

theorem respect_reSpaced : ClassesRespect classOf reSpaced := by
  simp only [reSpaced, ClassesRespect]
  refine ⟨⟨?_, ?_⟩, ?_⟩
  · intro c; rw [ignoreCase_alnum, ignoreCase_alnum, isAlnum_classOf]
  · exact isSpaceOrHyphen_classOf
  · intro c; rw [ignoreCase_alnum, ignoreCase_alnum, isAlnum_classOf]

/-- If the pattern matches the whole of the class image of a string, it
matches the whole string. -/
theorem matchFirst_whole (r : Regex) (hwf : WF r) (hr : ClassesRespect classOf r)
    (s : JSString) (h : matchesWhole r (s.map classOf) = true) :
    matchFirst r s = some s := by
  have himg := exec_image classOf isWordChar_classOf r hr s none
  simp only [Option.map_none'] at himg
  simp only [matchesWhole] at h
  cases he2 : exec r none (s.map classOf) with
  | none => rw [he2] at h; simp at h
  | some e =>
    rw [he2] at h himg
    simp only [Bool.and_eq_true, List.isEmpty_iff, beq_iff_eq, List.length_map] at h
    cases he : exec r none s with
    | none => rw [he] at himg; simp at himg
    | some mt =>
      rw [he] at himg
      simp only [Option.map_some', Option.some.injEq] at himg
      obtain ⟨e1, -, -⟩ := exec_sem r hwf s none mt he
      have hb : mt.before = [] := by
        have : mt.before.map classOf = [] := by rw [← h.1, ← himg]; rfl
        simpa using this
      have hl : mt.text.length = s.length := by
        have : (mt.text.map classOf).length = s.length := by rw [← h.2, ← himg]; rfl
        simpa using this
      have hlen := congrArg List.length e1
      simp only [List.length_append, hb, hl, List.length_nil] at hlen
      have hr0 : mt.after.rest = [] := List.length_eq_zero.1 (by omega)
      simp only [matchFirst, he, Option.map_some', Option.some.injEq]
      rw [e1, hb, hr0]
      simp

theorem map_classOf_alnum (s : List Nat) (h : ∀ c ∈ s, isAlnum c = true) :
    s.map classOf = List.replicate s.length 65 := by
  induction s with
  | nil => rfl
  | cons a t ih =>
    simp only [List.map_cons, List.length_cons, List.replicate_succ, List.cons.injEq]
    refine ⟨?_, ih (fun c hc => h c (List.mem_cons_of_mem _ hc))⟩
    simp [classOf, h a (List.mem_cons_self _ _)]

theorem reSpaced_whole_run (n : Nat) (h8 : 8 ≤ n) (h17 : n ≤ 17) :
    matchesWhole reSpaced (List.replicate n 65) = true := by
  interval_cases n <;> decide

/-! ### Extraction is idempotent on its results -/

theorem isAlnum_of_upperAlnum (c : Nat) (h : isUpperAlnum c = true) : isAlnum c = true := by
  simp only [isUpperAlnum, isAlnum, isLetter, Bool.or_eq_true] at *
  tauto

theorem not_space_of_alnum (c : Nat) (h : isAlnum c = true) : isWhiteSpace c = false := by
  simp only [isAlnum, isLetter, isWhiteSpace, isUpper, isLower, isDigit, Bool.or_eq_true,
    Bool.and_eq_true, decide_eq_true_eq, beq_iff_eq, Bool.or_eq_false_iff,
    Bool.and_eq_false_iff, decide_eq_false_iff_not, beq_eq_false_iff_ne] at *
  omega

theorem not_separator_of_alnum (c : Nat) (h : isAlnum c = true) :
    isSpaceOrHyphen c = false := by
  simp only [isAlnum, isLetter, isSpaceOrHyphen, isWhiteSpace, isUpper, isLower, isDigit,
    Bool.or_eq_true, Bool.and_eq_true, decide_eq_true_eq, beq_iff_eq, Bool.or_eq_false_iff,
    Bool.and_eq_false_iff, decide_eq_false_iff_not, beq_eq_false_iff_ne] at *
  omega

theorem collapseAux_of_no_space (s : List Nat) (h : ∀ c ∈ s, isWhiteSpace c = false) :
    collapseAux false s = s := by
  induction s with
  | nil => rfl
  | cons a t ih =>
    simp [collapseAux, h a (List.mem_cons_self _ _),
      ih (fun c hc => h c (List.mem_cons_of_mem _ hc))]

theorem dropWhile_of_head (p : Nat → Bool) (s : List Nat)
    (h : ∀ a, s.head? = some a → p a = false) : s.dropWhile p = s := by
  cases s with
  | nil => rfl
  | cons a t => simp [List.dropWhile, h a rfl]

/-- The method `trim` leaves alone a string that neither starts nor ends with white space. -/
theorem trim_of_ends (s : List Nat) (h1 : ∀ a, s.head? = some a → isWhiteSpace a = false)
    (h2 : ∀ a, s.getLast? = some a → isWhiteSpace a = false) : trim s = s := by
  simp only [trim]
  rw [dropWhile_of_head _ s h1, dropWhile_of_head _ s.reverse (by
    intro a ha
    rw [List.head?_reverse] at ha
    exact h2 a ha), List.reverse_reverse]

theorem cleanText_of_no_space (s : List Nat) (h : ∀ c ∈ s, isWhiteSpace c = false) :
    cleanText s = s := by
  rw [cleanText_eq, collapseAux_of_no_space s h]
  apply trim_of_ends
  · intro a ha; exact h a (List.mem_of_mem_head? ha)
  · intro a ha; exact h a (List.mem_of_mem_getLast? ha)

theorem spacedCandidate_of_identifier (r : JSString) (h : IsIdentifier r) :
    spacedCandidate r = some r := by
  obtain ⟨h8, h17, hc⟩ := h
  have halnum : ∀ c ∈ r, isAlnum c = true := fun c hcr => isAlnum_of_upperAlnum c (hc c hcr)
  have hm : matchFirst reSpaced r = some r := by
    apply matchFirst_whole reSpaced wf_reSpaced respect_reSpaced
    rw [map_classOf_alnum r halnum]
    exact reSpaced_whole_run _ h8 h17
  have hfilter : r.filter (fun c => !isSpaceOrHyphen c) = r := by
    apply List.filter_eq_self.2
    intro c hcr
    simp [not_separator_of_alnum c (halnum c hcr)]
  simp only [spacedCandidate, hm, reSeparator, replaceAll_cls, hfilter,
    toUpperCase_of_identifier r hc]
  simp [h8, h17]

theorem vin_of_identifier (r vin : JSString) (h : IsIdentifier r)
    (hv : matchFirst reVin r = some vin) : toUpperCase vin = r := by
  obtain ⟨h8, h17, hc⟩ := h
  obtain ⟨mt, he, ht⟩ := matchFirst_some _ _ _ hv
  rw [reVin_eq] at he
  obtain ⟨e1, ⟨r1, r2, r3, r4, r5⟩, e3, e4⟩ :=
    exec_run _ (fun c hcv => by
      rw [ignoreCase_vin] at hcv
      exact isWordChar_of_alnum c (isAlnum_of_vin c hcv)) 17 (by omega) (by omega) _ _ _ he
  have hlen := congrArg List.length e1
  simp only [List.length_append] at hlen
  have hb : mt.before = [] := List.length_eq_zero.1 (by omega)
  have ha : mt.after.rest = [] := List.length_eq_zero.1 (by omega)
  rw [hb, ha] at e1
  simp only [List.nil_append, List.append_nil] at e1
  rw [← ht, ← e1]
  exact toUpperCase_of_identifier r hc

/-- Run on an identifier, the extraction gives the identifier back. -/
theorem extract_of_identifier (r : JSString) (h : IsIdentifier r) :
    extractChassisNumber r = some r := by
  have hne : r.isEmpty = false := by
    cases r with
    | nil => simp [IsIdentifier] at h
    | cons a t => rfl
  have hclean : cleanText r = r := by
    apply cleanText_of_no_space
    intro c hc
    exact not_space_of_alnum c (isAlnum_of_upperAlnum c (h.2.2 c hc))
  simp only [extractChassisNumber, hne, Bool.false_eq_true, if_false, hclean]
  cases hv : matchFirst reVin r with
  | some vin => simp only [vin_of_identifier r vin h hv]
  | none => simp only [spacedCandidate_of_identifier r h]

/-- C10. Extracted identifiers are fixed points of the extraction: when
`extractChassisNumber` returns `r` on some text, it returns `r` on `r`. -/
theorem extract_fixed_point (text r : JSString) (h : extractChassisNumber text = some r) :
    extractChassisNumber r = some r :=
  extract_of_identifier r (extract_isIdentifier text r h)

theorem extract_fixed_point_witness :
    extractChassisNumber (lit "AB12CD34EF") = some (lit "AB12CD34EF") :=
  extract_fixed_point (lit "AB12-CD34-EF") (lit "AB12CD34EF") (by decide)

/-! ### The second tier on a segmented text -/

theorem matcher_reSpaced (x : State) :
    matcher reSpaced some x =
      repeatMatcher (matcher reIter) 6 3 (matcher reFinal some) x := rfl

theorem isSeparator_of (s : Nat) (h : s = 32 ∨ s = 45) : isSpaceOrHyphen s = true := by
  rcases h with h | h <;> subst h <;> decide

theorem not_alnum_of_separator (s : Nat) (h : isSpaceOrHyphen s = true) :
    isAlnum s = false := by
  cases ha : isAlnum s with
  | false => rfl
  | true => rw [not_separator_of_alnum s ha] at h; exact absurd h (by simp)

/-- One round of the group takes a whole group and its separator first. -/
theorem matcher_reIter_group (d : Cont) (z : State) (prev : Option Nat) (g : List Nat)
    (s : Nat) (rest : List Nat) (hg : IsGroup g) (hs : isSpaceOrHyphen s = true)
    (hd : d ⟨some s, rest⟩ = some z) :
    matcher reIter d ⟨prev, g ++ s :: rest⟩ = some z := by
  obtain ⟨g2, g4, galnum⟩ := hg
  have h1 : matcher reIter d ⟨prev, g ++ s :: rest⟩ =
      repeatMatcher (matcher (.cls (ignoreCase isUpperAlnum))) 4 2
        (matcher (.rep (.cls isSpaceOrHyphen) 0 (some 1)) d) ⟨prev, g ++ s :: rest⟩ := rfl
  rw [h1]
  apply repeat_cls_top _ _ _ (s :: rest) g 4 2 prev
  · intro a ha; rw [ignoreCase_alnum]; exact galnum a ha
  · exact g2
  · exact g4
  · right
    intro a ha
    simp only [List.head?_cons, Option.some.injEq] at ha
    subst ha
    rw [ignoreCase_alnum]
    exact not_alnum_of_separator _ hs
  · have h2 : matcher (.rep (.cls isSpaceOrHyphen) 0 (some 1)) d
        ⟨prevAfter prev g, s :: rest⟩ =
        repeatMatcher (matcher (.cls isSpaceOrHyphen)) 1 0 d
          ⟨prevAfter prev g, [s] ++ rest⟩ := rfl
    rw [h2]
    apply repeat_cls_top _ _ _ rest [s] 1 0
    · intro a ha
      simp only [List.mem_singleton] at ha
      subst ha
      exact hs
    · simp
    · simp
    · left; rfl
    · exact hd

/-- The repetition of the group takes a whole group and its separator first. -/
theorem repeat_reIter_group (c : Cont) (z : State) (prev : Option Nat) (g : List Nat)
    (s : Nat) (rest : List Nat) (k min : Nat) (hg : IsGroup g)
    (hs : isSpaceOrHyphen s = true)
    (h : repeatMatcher (matcher reIter) k (min - 1) c ⟨some s, rest⟩ = some z) :
    repeatMatcher (matcher reIter) (k + 1) min c ⟨prev, g ++ s :: rest⟩ = some z := by
  rw [repeatMatcher_succ]
  have hm : matcher reIter (fun y =>
      if min = 0 ∧ y.rest.length = (⟨prev, g ++ s :: rest⟩ : State).rest.length then none
      else repeatMatcher (matcher reIter) k (min - 1) c y) ⟨prev, g ++ s :: rest⟩ = some z := by
    apply matcher_reIter_group _ _ _ _ _ _ hg hs
    have : ¬ (min = 0 ∧ rest.length = (g ++ s :: rest).length) := by
      simp only [List.length_append, List.length_cons]
      omega
    simp only [this, if_false]
    exact h
  rw [hm]
  split <;> rfl

theorem endsWhole_image (f : Nat → Nat) (o : Option State) :
    endsWhole (o.map (State.image f)) = endsWhole o := by
  cases o with
  | none => rfl
  | some z =>
    simp only [Option.map_some', endsWhole, State.image]
    cases z.rest <;> rfl

theorem respect_reIter : ClassesRespect classOf reIter := respect_reSpaced.1

theorem respect_reFinal : ClassesRespect classOf reFinal := respect_reSpaced.2

theorem repeat_reIter_last_shape :
    ∀ prev ∈ [none, some 45], ∀ max ∈ [0, 1, 2, 3], ∀ k ∈ [2, 3, 4],
      endsWhole (repeatMatcher (matcher reIter) max 0 (matcher reFinal some)
        ⟨prev, List.replicate k 65⟩) = true := by
  decide

/-- Once the mandatory rounds are done, a last group is matched to its end. -/
theorem repeat_reIter_last (prev : Option Nat) (g : List Nat) (max : Nat) (hg : IsGroup g)
    (hmax : max ≤ 3) (hprev : prev = none ∨ ∃ s, prev = some s ∧ (s = 32 ∨ s = 45)) :
    endsWhole (repeatMatcher (matcher reIter) max 0 (matcher reFinal some) ⟨prev, g⟩)
      = true := by
  obtain ⟨g2, g4, galnum⟩ := hg
  have himg := repeatMatcher_image classOf (matcher reIter)
    (fun c c2 hc x => matcher_image classOf isWordChar_classOf reIter respect_reIter c c2 hc x)
    max 0 (matcher reFinal some) (matcher reFinal some)
    (fun y => matcher_image classOf isWordChar_classOf reFinal respect_reFinal some some
      (fun _ => rfl) y) ⟨prev, g⟩
  rw [← endsWhole_image classOf, himg]
  simp only [State.image, map_classOf_alnum g galnum]
  apply repeat_reIter_last_shape
  · rcases hprev with h | ⟨s, h, hs⟩
    · subst h; simp
    · subst h
      rcases hs with hs | hs <;> subst hs <;> simp [classOf] <;> decide
  · interval_cases max <;> simp
  · generalize g.length = k at g2 g4
    interval_cases k <;> simp

/-- With enough groups, the repetition followed by the last part matches a
segmented text to its end. -/
theorem repeat_reIter_joined : ∀ (more : List (Nat × JSString)) (first : JSString)
    (prev : Option Nat) (max min : Nat), IsGroup first →
    (∀ sg ∈ more, (sg.1 = 32 ∨ sg.1 = 45) ∧ IsGroup sg.2) →
    min ≤ more.length → more.length ≤ max → max - more.length ≤ 3 →
    (prev = none ∨ ∃ s, prev = some s ∧ (s = 32 ∨ s = 45)) →
    endsWhole (repeatMatcher (matcher reIter) max min (matcher reFinal some)
      ⟨prev, joined first more⟩) = true := by
  intro more
  induction more with
  | nil =>
    intro first prev max min hg _ hmin _ hmax hprev
    have : min = 0 := by simpa using hmin
    subst this
    exact repeat_reIter_last prev first max hg (by simpa using hmax) hprev
  | cons sg more ih =>
    intro first prev max min hg hmore hmin hlen hmax hprev
    cases max with
    | zero => simp at hlen
    | succ k =>
      have hsg := hmore sg (List.mem_cons_self _ _)
      have hrec := ih sg.2 (some sg.1) k (min - 1) hsg.2
        (fun x hx => hmore x (List.mem_cons_of_mem _ hx))
        (by simp at hmin; omega) (by simp at hlen; omega) (by simp at hmax; omega)
        (Or.inr ⟨sg.1, rfl, hsg.1⟩)
      cases hz : repeatMatcher (matcher reIter) k (min - 1) (matcher reFinal some)
          ⟨some sg.1, joined sg.2 more⟩ with
      | none => rw [hz] at hrec; simp [endsWhole] at hrec
      | some z =>
        rw [hz] at hrec
        simp only [joined]
        rw [repeat_reIter_group _ z prev first sg.1 _ k min hg (isSeparator_of _ hsg.1) hz]
        exact hrec

theorem exec_of_matchAt_some (r : Regex) (prev : Option Nat) (rest : List Nat) (mt : Match)
    (h : matchAt r prev rest = some mt) : exec r prev rest = some mt := by
  cases rest with
  | nil => simpa [exec] using h
  | cons a t => simp [exec, h]

/-- With at least four groups, the second-tier pattern matches the whole of a
segmented text. -/
theorem matchFirst_joined_long (first : JSString) (more : List (Nat × JSString))
    (hg : IsGroup first) (hmore : ∀ sg ∈ more, (sg.1 = 32 ∨ sg.1 = 45) ∧ IsGroup sg.2)
    (h3 : 3 ≤ more.length) (h5 : more.length ≤ 5) :
    matchFirst reSpaced (joined first more) = some (joined first more) := by
  have hends := repeat_reIter_joined more first none 6 3 hg hmore h3 (by omega) (by omega)
    (Or.inl rfl)
  rw [← matcher_reSpaced] at hends
  cases hz : matcher reSpaced some ⟨none, joined first more⟩ with
  | none => rw [hz] at hends; simp [endsWhole] at hends
  | some z =>
    rw [hz] at hends
    simp only [endsWhole, List.isEmpty_iff] at hends
    have hm : matchAt reSpaced none (joined first more) =
        some ⟨[], joined first more, z⟩ := by
      simp [matchAt, hz, hends]
    simp [matchFirst, exec_of_matchAt_some _ _ _ _ hm]

theorem reSpaced_three_shape :
    ∀ k1 ∈ [2, 3, 4], ∀ k2 ∈ [2, 3, 4], ∀ k3 ∈ [2, 3, 4], (k1 = 4 ∨ k2 = 4 ∨ k3 = 4) →
      matchesWhole reSpaced
        (List.replicate k1 65 ++ 45 :: (List.replicate k2 65 ++ 45 :: List.replicate k3 65))
        = true := by
  decide

theorem classOf_separator (s : Nat) (h : s = 32 ∨ s = 45) : classOf s = 45 := by
  rcases h with h | h <;> subst h <;> decide

theorem mem_sizes (g : JSString) (hg : IsGroup g) : g.length ∈ [2, 3, 4] := by
  obtain ⟨g2, g4, -⟩ := hg
  generalize g.length = k at g2 g4
  interval_cases k <;> simp

/-- With three groups, one of them of four characters, the second-tier
pattern matches the whole of a segmented text. -/
theorem matchFirst_joined_three (first : JSString) (a b : Nat × JSString)
    (hg : IsGroup first) (ha : (a.1 = 32 ∨ a.1 = 45) ∧ IsGroup a.2)
    (hb : (b.1 = 32 ∨ b.1 = 45) ∧ IsGroup b.2)
    (h4 : first.length = 4 ∨ a.2.length = 4 ∨ b.2.length = 4) :
    matchFirst reSpaced (joined first [a, b]) = some (joined first [a, b]) := by
  apply matchFirst_whole reSpaced wf_reSpaced respect_reSpaced
  simp only [joined, List.map_append, List.map_cons, map_classOf_alnum _ hg.2.2,
    map_classOf_alnum _ ha.2.2.2, map_classOf_alnum _ hb.2.2.2, classOf_separator _ ha.1,
    classOf_separator _ hb.1]
  exact reSpaced_three_shape _ (mem_sizes _ hg) _ (mem_sizes _ ha.2) _ (mem_sizes _ hb.2) h4

theorem group_ne_nil (g : JSString) (hg : IsGroup g) : g ≠ [] := by
  intro h
  have := hg.1
  rw [h] at this
  simp at this

theorem joined_head (first : JSString) (more : List (Nat × JSString)) (hg : IsGroup first) :
    ∃ c t, joined first more = c :: t ∧ isAlnum c = true := by
  cases first with
  | nil => exact absurd rfl (group_ne_nil _ hg)
  | cons c t =>
    have hc := hg.2.2 c (List.mem_cons_self _ _)
    cases more with
    | nil => exact ⟨c, t, rfl, hc⟩
    | cons sg more => exact ⟨c, t ++ sg.1 :: joined sg.2 more, rfl, hc⟩

theorem collapseAux_append (g rest : List Nat) (h : ∀ c ∈ g, isWhiteSpace c = false) :
    collapseAux false (g ++ rest) = g ++ collapseAux false rest := by
  induction g with
  | nil => rfl
  | cons a t ih =>
    simp [collapseAux, h a (List.mem_cons_self _ _),
      ih (fun c hc => h c (List.mem_cons_of_mem _ hc))]

theorem collapseAux_joined : ∀ (more : List (Nat × JSString)) (first : JSString),
    IsGroup first → (∀ sg ∈ more, (sg.1 = 32 ∨ sg.1 = 45) ∧ IsGroup sg.2) →
    collapseAux false (joined first more) = joined first more := by
  intro more
  induction more with
  | nil =>
    intro first hg _
    exact collapseAux_of_no_space _ (fun c hc => not_space_of_alnum c (hg.2.2 c hc))
  | cons sg more ih =>
    intro first hg hmore
    have hsg := hmore sg (List.mem_cons_self _ _)
    have hrec := ih sg.2 hsg.2 (fun x hx => hmore x (List.mem_cons_of_mem _ hx))
    simp only [joined]
    rw [collapseAux_append _ _ (fun c hc => not_space_of_alnum c (hg.2.2 c hc))]
    congr 1
    rcases hsg.1 with h | h
    · rw [h]
      have : collapseAux false (32 :: joined sg.2 more) =
          32 :: collapseAux true (joined sg.2 more) := by
        simp [collapseAux, show isWhiteSpace 32 = true by decide]
      rw [this, collapseAux_true]
      obtain ⟨c, t, hj, hc⟩ := joined_head sg.2 more hsg.2
      rw [dropWhile_of_head _ _ (by
        intro a ha
        rw [hj] at ha
        simp only [List.head?_cons, Option.some.injEq] at ha
        subst ha
        exact not_space_of_alnum _ hc), hrec]
    · rw [h]
      have : collapseAux false (45 :: joined sg.2 more) =
          45 :: collapseAux false (joined sg.2 more) := by
        simp [collapseAux, show isWhiteSpace 45 = false by decide]
      rw [this, hrec]

theorem getLast_append_cons (A J : List Nat) (s : Nat) (h : J ≠ []) :
    (A ++ s :: J).getLast? = J.getLast? := by
  have : A ++ s :: J = (A ++ [s]) ++ J := by simp
  rw [this, List.getLast?_append]
  cases hJ : J.getLast? with
  | none => simp at hJ; exact absurd hJ h
  | some v => rfl

theorem joined_ne_nil (first : JSString) (more : List (Nat × JSString))
    (hg : IsGroup first) : joined first more ≠ [] := by
  obtain ⟨c, t, hj, -⟩ := joined_head first more hg
  rw [hj]
  simp

theorem getLast_joined : ∀ (more : List (Nat × JSString)) (first : JSString),
    IsGroup first → (∀ sg ∈ more, (sg.1 = 32 ∨ sg.1 = 45) ∧ IsGroup sg.2) →
    ∀ a, (joined first more).getLast? = some a → isAlnum a = true := by
  intro more
  induction more with
  | nil =>
    intro first hg _ a ha
    exact hg.2.2 a (List.mem_of_mem_getLast? ha)
  | cons sg more ih =>
    intro first hg hmore a ha
    have hsg := hmore sg (List.mem_cons_self _ _)
    simp only [joined] at ha
    rw [getLast_append_cons _ _ _ (joined_ne_nil _ _ hsg.2)] at ha
    exact ih sg.2 hsg.2 (fun x hx => hmore x (List.mem_cons_of_mem _ hx)) a ha

/-- A segmented text is already normalized. -/
theorem cleanText_joined (first : JSString) (more : List (Nat × JSString))
    (hg : IsGroup first) (hmore : ∀ sg ∈ more, (sg.1 = 32 ∨ sg.1 = 45) ∧ IsGroup sg.2) :
    cleanText (joined first more) = joined first more := by
  rw [cleanText_eq, collapseAux_joined more first hg hmore]
  apply trim_of_ends
  · intro a ha
    obtain ⟨c, t, hj, hc⟩ := joined_head first more hg
    rw [hj] at ha
    simp only [List.head?_cons, Option.some.injEq] at ha
    subst ha
    exact not_space_of_alnum _ hc
  · intro a ha
    exact not_space_of_alnum _ (getLast_joined more first hg hmore a ha)

/-- No run of letters and digits of a segmented text is longer than a group. -/
theorem alnum_run_joined : ∀ (more : List (Nat × JSString)) (first : JSString),
    IsGroup first → (∀ sg ∈ more, (sg.1 = 32 ∨ sg.1 = 45) ∧ IsGroup sg.2) →
    ∀ u t v, joined first more = u ++ t ++ v → (∀ c ∈ t, isAlnum c = true) →
    t.length ≤ 4 := by
  intro more
  induction more with
  | nil =>
    intro first hg _ u t v h _
    have := congrArg List.length h
    simp only [joined, List.length_append] at this
    have := hg.2.1
    omega
  | cons sg more ih =>
    intro first hg hmore u t v h ht
    have hsg := hmore sg (List.mem_cons_self _ _)
    have hsep : isAlnum sg.1 = false := not_alnum_of_separator _ (isSeparator_of _ hsg.1)
    have hrec := ih sg.2 hsg.2 (fun x hx => hmore x (List.mem_cons_of_mem _ hx))
    simp only [joined, List.append_assoc] at h
    rcases List.append_eq_append_iff.1 h with ⟨a, ha1, ha2⟩ | ⟨a, ha1, ha2⟩
    · -- u = first ++ a : the run lies after the first group
      cases a with
      | nil =>
        simp only [List.nil_append] at ha2
        cases t with
        | nil => simp
        | cons c t2 =>
          simp only [List.cons_append, List.cons.injEq] at ha2
          have := ht c (List.mem_cons_self _ _)
          rw [← ha2.1, hsep] at this
          exact absurd this (by simp)
      | cons c a2 =>
        simp only [List.cons_append, List.cons.injEq] at ha2
        exact hrec a2 t v (by rw [ha2.2, List.append_assoc]) ht
    · -- first = u ++ a : the run starts within the first group
      rcases List.append_eq_append_iff.1 ha2 with ⟨d, hd1, hd2⟩ | ⟨d, hd1, hd2⟩
      · -- a = t ++ d
        have := congrArg List.length ha1
        rw [hd1] at this
        simp only [List.length_append] at this
        have := hg.2.1
        omega
      · -- t = a ++ d, with d at the separator
        cases d with
        | nil =>
          have := congrArg List.length ha1
          simp only [List.append_nil] at hd1
          rw [hd1]
          simp only [List.length_append] at this
          have := hg.2.1
          omega
        | cons c d2 =>
          simp only [List.cons_append, List.cons.injEq] at hd2
          have := ht c (by rw [hd1]; simp)
          rw [← hd2.1, hsep] at this
          exact absurd this (by simp)

theorem matchFirst_reVin_joined (first : JSString) (more : List (Nat × JSString))
    (hg : IsGroup first) (hmore : ∀ sg ∈ more, (sg.1 = 32 ∨ sg.1 = 45) ∧ IsGroup sg.2) :
    matchFirst reVin (joined first more) = none := by
  cases hv : matchFirst reVin (joined first more) with
  | none => rfl
  | some vin =>
    exfalso
    obtain ⟨mt, he, ht⟩ := matchFirst_some _ _ _ hv
    obtain ⟨e1, e2, e3, e4, -⟩ := exec_bounded_run _ 17 17 (le_refl _) _ _ _ he
    have := alnum_run_joined more first hg hmore mt.before mt.text mt.after.rest e1
      (fun c hc => by
        have := e4 c hc
        rw [ignoreCase_vin] at this
        exact isAlnum_of_vin c this)
    omega

theorem filter_joined : ∀ (more : List (Nat × JSString)) (first : JSString),
    IsGroup first → (∀ sg ∈ more, (sg.1 = 32 ∨ sg.1 = 45) ∧ IsGroup sg.2) →
    (joined first more).filter (fun c => !isSpaceOrHyphen c) = compacted first more := by
  intro more
  induction more with
  | nil =>
    intro first hg _
    simp only [joined, compacted]
    apply List.filter_eq_self.2
    intro c hc
    simp [not_separator_of_alnum c (hg.2.2 c hc)]
  | cons sg more ih =>
    intro first hg hmore
    have hsg := hmore sg (List.mem_cons_self _ _)
    have hrec := ih sg.2 hsg.2 (fun x hx => hmore x (List.mem_cons_of_mem _ hx))
    have hfirst : first.filter (fun c => !isSpaceOrHyphen c) = first := by
      apply List.filter_eq_self.2
      intro c hc
      simp [not_separator_of_alnum c (hg.2.2 c hc)]
    simp only [joined, compacted, List.filter_append, hfirst, List.filter_cons,
      isSeparator_of _ hsg.1, hrec]
    simp

theorem matchFirst_reSpaced_joined (first : JSString) (more : List (Nat × JSString))
    (h : Segmented first more)
    (h4 : 3 ≤ more.length ∨ first.length = 4 ∨ ∃ sg ∈ more, sg.2.length = 4) :
    matchFirst reSpaced (joined first more) = some (joined first more) := by
  obtain ⟨hg, hmore, h2, h5, -, -⟩ := h
  by_cases h3 : 3 ≤ more.length
  · exact matchFirst_joined_long first more hg hmore h3 h5
  · have hlen : more.length = 2 := by omega
    match more, hlen with
    | [a, b], _ =>
      apply matchFirst_joined_three first a b hg (hmore a (by simp)) (hmore b (by simp))
      rcases h4 with h | h | ⟨sg, hsg, hl⟩
      · simp at h
      · exact Or.inl h
      · simp only [List.mem_cons, List.mem_singleton, List.not_mem_nil, or_false] at hsg
        rcases hsg with rfl | rfl
        · exact Or.inr (Or.inl hl)
        · exact Or.inr (Or.inr hl)

/-- C5, as stated, fails: `ABC-DEF-GH` is made of three groups joined by
single hyphens and its concatenation has 8 characters, yet nothing is
returned, since the pattern asks for at least four parts of 2 to 4 characters. -/
theorem segmented_not_always_returned :
    ¬ ∀ (first : JSString) (more : List (Nat × JSString)), Segmented first more →
      extractChassisNumber (joined first more) = some (toUpperCase (compacted first more)) := by
  intro h
  have h1 := h (lit "ABC") [(45, lit "DEF"), (45, lit "GH")] (by decide)
  revert h1
  decide

/-- C5, amended. For every text that consists of 3 to 6 alphanumeric groups of
2 to 4 characters each, joined by single hyphens or single spaces, whose
concatenation has length between 8 and 17, and that has at least four groups
or a group of exactly four characters, `extractChassisNumber` returns the
groups concatenated (separators stripped) and upper-cased. -/
theorem segmented_returned (first : JSString) (more : List (Nat × JSString))
    (h : Segmented first more)
    (h4 : 3 ≤ more.length ∨ first.length = 4 ∨ ∃ sg ∈ more, sg.2.length = 4) :
    extractChassisNumber (joined first more) = some (toUpperCase (compacted first more)) := by
  have hm := matchFirst_reSpaced_joined first more h h4
  obtain ⟨hg, hmore, -, -, h8, h17⟩ := h
  have hne : (joined first more).isEmpty = false := by
    obtain ⟨c, t, hj, -⟩ := joined_head first more hg
    rw [hj]; rfl
  have hcand : spacedCandidate (joined first more) = some (toUpperCase (compacted first more)) := by
    simp only [spacedCandidate, hm, reSeparator, replaceAll_cls, filter_joined more first hg hmore,
      toUpperCase_length]
    simp [h8, h17]
  simp only [extractChassisNumber, hne, Bool.false_eq_true, if_false,
    cleanText_joined first more hg hmore, matchFirst_reVin_joined first more hg hmore, hcand]

theorem segmented_returned_witness :
    extractChassisNumber (lit "AB12-CD34-EF") = some (lit "AB12CD34EF") :=
  segmented_returned (lit "AB12") [(45, lit "CD34"), (45, lit "EF")] (by decide)
    (Or.inr (Or.inl (by decide)))

/-! ### The first tier does not depend on the white space -/

theorem not_space_of_word (c : Nat) (h : isWordChar c = true) : isWhiteSpace c = false := by
  simp only [isWordChar, isWhiteSpace, isUpper, isLower, isDigit, Bool.or_eq_true,
    Bool.and_eq_true, decide_eq_true_eq, beq_iff_eq, Bool.or_eq_false_iff,
    Bool.and_eq_false_iff, decide_eq_false_iff_not, beq_eq_false_iff_ne] at *
  omega

theorem not_word_of_space (c : Nat) (h : isWhiteSpace c = true) : isWordChar c = false := by
  cases hw : isWordChar c with
  | false => rfl
  | true => rw [not_space_of_word c hw] at h; exact absurd h (by simp)

/-- One attempt of `\b[class]{min,17}\b` gives `w` exactly when the text
starts with the run `w`. -/
theorem matchAtText_iff (p : Nat → Bool) (hp : ∀ c, p c = true → isWordChar c = true)
    (min : Nat) (h1 : 1 ≤ min) (h17 : min ≤ 17) (prev : Option Nat) (t w : List Nat) :
    matchAtText (boundedRun p min) prev t = some w ↔
      StartsRun p min (isWordAt prev) t w := by
  constructor
  · intro h
    simp only [matchAtText, Option.map_eq_some'] at h
    obtain ⟨mt, hm, ht⟩ := h
    have hb := (matchAt_some _ _ _ _ hm).1
    obtain ⟨e1, ⟨r1, r2, r3, r4, r5⟩, -, -⟩ :=
      exec_run p hp min h1 h17 _ _ _ (exec_of_matchAt_some _ _ _ _ hm)
    rw [hb] at e1 r4
    simp only [List.nil_append, prevAfter_nil] at e1 r4
    rw [ht] at e1 r1 r2 r3
    exact ⟨mt.after.rest, e1, r1, r2, r3, r4, r5⟩
  · rintro ⟨post, rfl, r1, r2, r3, r4, r5⟩
    have hne : w ≠ [] := by
      intro h0; rw [h0] at r2; simp at r2; omega
    have := matcher_bounded_run p hp min 17 prev w post r1 hne r2 r3 r4 r5
    have hm : matcher (boundedRun p min) some ⟨prev, w ++ post⟩ =
        some ⟨prevAfter prev w, post⟩ := this
    simp [matchAtText, matchAt, hm]

theorem matchAtText_congr (p : Nat → Bool) (hp : ∀ c, p c = true → isWordChar c = true)
    (min : Nat) (h1 : 1 ≤ min) (h17 : min ≤ 17) (prev1 prev2 : Option Nat) (t1 t2 : List Nat)
    (h : ∀ w, StartsRun p min (isWordAt prev1) t1 w ↔ StartsRun p min (isWordAt prev2) t2 w) :
    matchAtText (boundedRun p min) prev1 t1 = matchAtText (boundedRun p min) prev2 t2 := by
  apply Option.ext
  intro w
  simp only [Option.mem_def]
  rw [matchAtText_iff p hp min h1 h17, matchAtText_iff p hp min h1 h17]
  exact h w

theorem execText_nil (r : Regex) (prev : Option Nat) :
    execText r prev [] = matchAtText r prev [] := rfl

theorem execText_cons (r : Regex) (prev : Option Nat) (c : Nat) (cs : List Nat) :
    execText r prev (c :: cs) =
      match matchAtText r prev (c :: cs) with
      | some w => some w
      | none => execText r (some c) cs := by
  simp only [execText, matchAtText, exec]
  cases matchAt r prev (c :: cs) with
  | some mt => rfl
  | none =>
    simp only [Option.map_none']
    cases exec r (some c) cs <;> rfl

theorem startsRun_head (p : Nat → Bool) (min : Nat) (h1 : 1 ≤ min) (pw : Bool)
    (c : Nat) (cs w : List Nat) (h : StartsRun p min pw (c :: cs) w) : p c = true := by
  obtain ⟨post, e, r1, r2, -⟩ := h
  cases w with
  | nil => simp at r2; omega
  | cons a t =>
    simp only [List.cons_append, List.cons.injEq] at e
    rw [e.1]
    exact r1 a (List.mem_cons_self _ _)

theorem matchAtText_of_not (p : Nat → Bool) (hp : ∀ c, p c = true → isWordChar c = true)
    (min : Nat) (h1 : 1 ≤ min) (h17 : min ≤ 17) (prev : Option Nat) (c : Nat) (cs : List Nat)
    (hc : p c = false) : matchAtText (boundedRun p min) prev (c :: cs) = none := by
  cases h : matchAtText (boundedRun p min) prev (c :: cs) with
  | none => rfl
  | some w =>
    have := startsRun_head p min h1 _ c cs w ((matchAtText_iff p hp min h1 h17 _ _ _).1 h)
    rw [hc] at this
    exact absurd this (by simp)

theorem matchAtText_nil (p : Nat → Bool) (hp : ∀ c, p c = true → isWordChar c = true)
    (min : Nat) (h1 : 1 ≤ min) (h17 : min ≤ 17) (prev : Option Nat) :
    matchAtText (boundedRun p min) prev [] = none := by
  cases h : matchAtText (boundedRun p min) prev [] with
  | none => rfl
  | some w =>
    obtain ⟨post, e, -, r2, -⟩ := (matchAtText_iff p hp min h1 h17 _ _ _).1 h
    have := congrArg List.length e
    simp at this
    omega

theorem head_collapseAux (post : List Nat) :
    isWordAt (collapseAux false post).head? = isWordAt post.head? := by
  cases post with
  | nil => rfl
  | cons c cs =>
    cases hc : isWhiteSpace c with
    | true =>
      simp only [collapseAux, hc, if_true, Bool.false_eq_true, if_false, List.head?_cons,
        isWordAt, not_word_of_space c hc]
      decide
    | false => simp [collapseAux, hc]

theorem uncollapse : ∀ (w t q : List Nat), (∀ c ∈ w, isWhiteSpace c = false) →
    collapseAux false t = w ++ q → ∃ post, t = w ++ post ∧ q = collapseAux false post := by
  intro w
  induction w with
  | nil => intro t q _ h; exact ⟨t, rfl, by simpa using h.symm⟩
  | cons a w2 ih =>
    intro t q hw h
    cases t with
    | nil => simp [collapseAux] at h
    | cons c cs =>
      have ha := hw a (List.mem_cons_self _ _)
      cases hc : isWhiteSpace c with
      | true =>
        simp only [collapseAux, hc, if_true, Bool.false_eq_true, if_false, List.cons_append,
          List.cons.injEq] at h
        rw [← h.1] at ha
        exact absurd ha (by decide)
      | false =>
        simp only [collapseAux, hc, Bool.false_eq_true, if_false, List.cons_append,
          List.cons.injEq] at h
        obtain ⟨post, e1, e2⟩ := ih cs q (fun x hx => hw x (List.mem_cons_of_mem _ hx)) h.2
        exact ⟨post, by rw [h.1, e1]; rfl, e2⟩

theorem startsRun_collapse (p : Nat → Bool) (hp : ∀ c, p c = true → isWordChar c = true)
    (min : Nat) (pw : Bool) (t w : List Nat) :
    StartsRun p min pw (collapseAux false t) w ↔ StartsRun p min pw t w := by
  constructor
  · rintro ⟨q, e, r1, r2, r3, r4, r5⟩
    obtain ⟨post, e1, e2⟩ := uncollapse w t q
      (fun c hc => not_space_of_word c (hp c (r1 c hc))) e
    refine ⟨post, e1, r1, r2, r3, r4, ?_⟩
    rw [← head_collapseAux, ← e2]
    exact r5
  · rintro ⟨post, e, r1, r2, r3, r4, r5⟩
    refine ⟨collapseAux false post, ?_, r1, r2, r3, r4, ?_⟩
    · rw [e, collapseAux_append _ _ (fun c hc => not_space_of_word c (hp c (r1 c hc)))]
    · rw [head_collapseAux]; exact r5

/-- Searching for `\b[class]{min,17}\b` finds the same substring in a text
and in the text with its white space collapsed. -/
theorem execText_collapse (p : Nat → Bool) (hp : ∀ c, p c = true → isWordChar c = true)
    (min : Nat) (h1 : 1 ≤ min) (h17 : min ≤ 17) :
    ∀ (t : List Nat) (b : Bool) (prev1 prev2 : Option Nat),
      isWordAt prev1 = isWordAt prev2 → (b = true → isWordAt prev1 = false) →
      execText (boundedRun p min) prev1 (collapseAux b t) =
        execText (boundedRun p min) prev2 t := by
  intro t
  induction t with
  | nil =>
    intro b prev1 prev2 _ _
    simp only [collapseAux, execText_nil, matchAtText_nil p hp min h1 h17]
  | cons c cs ih =>
    intro b prev1 prev2 hprev hb
    have hnot : ∀ x, isWhiteSpace x = true → p x = false := by
      intro x hx
      cases hpx : p x with
      | false => rfl
      | true => rw [not_space_of_word x (hp x hpx)] at hx; exact absurd hx (by simp)
    cases hc : isWhiteSpace c with
    | true =>
      have hcw : isWordAt (some c) = false := not_word_of_space c hc
      rw [execText_cons _ prev2, matchAtText_of_not p hp min h1 h17 _ _ _ (hnot c hc)]
      cases b with
      | true =>
        simp only [collapseAux, hc, if_true]
        exact ih true prev1 (some c) (by rw [hb rfl, hcw]) hb
      | false =>
        simp only [collapseAux, hc, if_true, Bool.false_eq_true, if_false]
        rw [execText_cons, matchAtText_of_not p hp min h1 h17 _ _ _ (hnot 32 (by decide))]
        exact ih true (some 32) (some c) (by rw [hcw]; decide) (fun _ => by decide)
    | false =>
      have hcol : collapseAux b (c :: cs) = collapseAux false (c :: cs) := by
        simp [collapseAux, hc]
      rw [hcol]
      have hm : matchAtText (boundedRun p min) prev1 (collapseAux false (c :: cs)) =
          matchAtText (boundedRun p min) prev2 (c :: cs) := by
        apply matchAtText_congr p hp min h1 h17
        intro w
        rw [startsRun_collapse p hp, hprev]
      have hcol2 : collapseAux false (c :: cs) = c :: collapseAux false cs := by
        simp [collapseAux, hc]
      rw [hcol2] at hm ⊢
      rw [execText_cons, execText_cons _ prev2, hm]
      cases matchAtText (boundedRun p min) prev2 (c :: cs) with
      | some w => rfl
      | none => exact ih false (some c) (some c) rfl (fun h => absurd h (by simp))

theorem startsRun_append_spaces (p : Nat → Bool)
    (hp : ∀ c, p c = true → isWordChar c = true) (min : Nat) (pw : Bool)
    (u tail w : List Nat) (htail : ∀ c ∈ tail, isWhiteSpace c = true) :
    StartsRun p min pw (u ++ tail) w ↔ StartsRun p min pw u w := by
  have htw : isWordAt tail.head? = false := by
    cases tail with
    | nil => rfl
    | cons a t => exact not_word_of_space a (htail a (List.mem_cons_self _ _))
  constructor
  · rintro ⟨q, e, r1, r2, r3, r4, r5⟩
    rcases List.append_eq_append_iff.1 e with ⟨a, ha1, ha2⟩ | ⟨a, ha1, ha2⟩
    · -- w = u ++ a, tail = a ++ q
      cases a with
      | nil =>
        simp only [List.append_nil] at ha1
        exact ⟨[], by simp [ha1], r1, r2, r3, r4, rfl⟩
      | cons x a2 =>
        exfalso
        have h1 := htail x (by rw [ha2]; simp)
        have h2 := not_space_of_word x (hp x (r1 x (by rw [ha1]; simp)))
        rw [h1] at h2
        exact absurd h2 (by simp)
    · -- u = w ++ a, q = a ++ tail
      refine ⟨a, ha1, r1, r2, r3, r4, ?_⟩
      cases a with
      | nil => rfl
      | cons x a2 => rw [ha2] at r5; exact r5
  · rintro ⟨post, e, r1, r2, r3, r4, r5⟩
    refine ⟨post ++ tail, by rw [e, List.append_assoc], r1, r2, r3, r4, ?_⟩
    cases post with
    | nil => exact htw
    | cons x a2 => exact r5

theorem execText_spaces (p : Nat → Bool) (hp : ∀ c, p c = true → isWordChar c = true)
    (min : Nat) (h1 : 1 ≤ min) (h17 : min ≤ 17) :
    ∀ (tail : List Nat) (prev : Option Nat), (∀ c ∈ tail, isWhiteSpace c = true) →
      execText (boundedRun p min) prev tail = none := by
  intro tail
  induction tail with
  | nil => intro prev _; rw [execText_nil, matchAtText_nil p hp min h1 h17]
  | cons c cs ih =>
    intro prev h
    have hc := h c (List.mem_cons_self _ _)
    have hpc : p c = false := by
      cases hpx : p c with
      | false => rfl
      | true => rw [not_space_of_word c (hp c hpx)] at hc; exact absurd hc (by simp)
    rw [execText_cons, matchAtText_of_not p hp min h1 h17 _ _ _ hpc]
    exact ih (some c) (fun x hx => h x (List.mem_cons_of_mem _ hx))

/-- White space at the end of the text does not change what the search finds. -/
theorem execText_append_spaces (p : Nat → Bool)
    (hp : ∀ c, p c = true → isWordChar c = true) (min : Nat) (h1 : 1 ≤ min) (h17 : min ≤ 17)
    (tail : List Nat) (htail : ∀ c ∈ tail, isWhiteSpace c = true) :
    ∀ (u : List Nat) (prev : Option Nat),
      execText (boundedRun p min) prev (u ++ tail) = execText (boundedRun p min) prev u := by
  intro u
  induction u with
  | nil =>
    intro prev
    rw [List.nil_append, execText_spaces p hp min h1 h17 tail prev htail, execText_nil,
      matchAtText_nil p hp min h1 h17]
  | cons c cs ih =>
    intro prev
    have hm : matchAtText (boundedRun p min) prev (c :: cs ++ tail) =
        matchAtText (boundedRun p min) prev (c :: cs) := by
      apply matchAtText_congr p hp min h1 h17
      intro w
      exact startsRun_append_spaces p hp min _ (c :: cs) tail w htail
    rw [List.cons_append, execText_cons, execText_cons _ prev c cs]
    rw [List.cons_append] at hm
    rw [hm, ih (some c)]

theorem trim_split (s : List Nat) :
    ∃ tail, (∀ c ∈ tail, isWhiteSpace c = true) ∧
      s.dropWhile isWhiteSpace = trim s ++ tail := by
  refine ⟨((s.dropWhile isWhiteSpace).reverse.takeWhile isWhiteSpace).reverse, ?_, ?_⟩
  · intro c hc
    rw [List.mem_reverse] at hc
    exact List.mem_takeWhile_imp hc
  · simp only [trim]
    rw [← List.reverse_append, List.takeWhile_append_dropWhile, List.reverse_reverse]

theorem dropWhile_collapseAux (s : List Nat) :
    (collapseAux false s).dropWhile isWhiteSpace = collapseAux true s := by
  cases s with
  | nil => rfl
  | cons c cs =>
    cases hc : isWhiteSpace c with
    | true =>
      simp only [collapseAux, hc, if_true, Bool.false_eq_true, if_false, List.dropWhile,
        show isWhiteSpace 32 = true by decide]
      rw [collapseAux_true]
      apply dropWhile_of_head
      intro a ha
      have h2 : collapseAux false (cs.dropWhile isWhiteSpace) = collapseAux true cs :=
        (collapseAux_true cs).symm
      cases hd : cs.dropWhile isWhiteSpace with
      | nil => rw [hd] at ha; simp [collapseAux] at ha
      | cons x xs =>
        have hx : isWhiteSpace x = false := head_dropWhile _ cs x (by rw [hd]; rfl)
        rw [hd] at ha
        simp only [collapseAux, hx, Bool.false_eq_true, if_false, List.head?_cons,
          Option.some.injEq] at ha
        rw [← ha]; exact hx
    | false => simp [collapseAux, hc, List.dropWhile]

/-- Searching for `\b[class]{min,17}\b` finds the same substring in a text
and in its white-space-normalized form. -/
theorem matchFirst_cleanText (p : Nat → Bool) (hp : ∀ c, p c = true → isWordChar c = true)
    (min : Nat) (h1 : 1 ≤ min) (h17 : min ≤ 17) (s : JSString) :
    matchFirst (boundedRun p min) (cleanText s) = matchFirst (boundedRun p min) s := by
  obtain ⟨tail, htail, hsplit⟩ := trim_split (collapseAux false s)
  have e1 := execText_append_spaces p hp min h1 h17 tail htail (cleanText s) none
  rw [cleanText_eq] at e1 ⊢
  rw [← hsplit, dropWhile_collapseAux] at e1
  have e2 := execText_collapse p hp min h1 h17 s true none none rfl (fun _ => rfl)
  rw [e2] at e1
  exact e1.symm

/-! ### The first tier -/

theorem isWordChar_of_ci_vin (c : Nat) (h : ignoreCase isUpperVin c = true) :
    isWordChar c = true := by
  rw [ignoreCase_vin] at h
  exact isWordChar_of_alnum c (isAlnum_of_vin c h)

theorem runAt_of_vinRun (s pre v post : JSString) (h : IsVinRun s pre v post) :
    s = pre ++ v ++ post ∧ RunAt (ignoreCase isUpperVin) 17 none pre v post := by
  obtain ⟨⟨h1, -, -, h4, h5⟩, h6, h7⟩ := h
  refine ⟨h1, ?_, by omega, by omega, ?_, h5⟩
  · intro c hc; rw [ignoreCase_vin]; exact h7 c hc
  · rw [prevAfter_none]; exact h4

theorem vinRun_of_runAt (s pre v post : JSString) (h1 : s = pre ++ v ++ post)
    (h2 : RunAt (ignoreCase isUpperVin) 17 none pre v post) : IsVinRun s pre v post := by
  obtain ⟨r1, r2, r3, r4, r5⟩ := h2
  have hv : ∀ c ∈ v, isVinChar c = true := by
    intro c hc; rw [← ignoreCase_vin]; exact r1 c hc
  refine ⟨⟨h1, ?_, fun c hc => isAlnum_of_vin c (hv c hc), ?_, r5⟩, by omega, hv⟩
  · intro h0; rw [h0] at r2; simp at r2
  · rw [← prevAfter_none]; exact r4

theorem vinAt_of_vinRun (s pre v post : JSString) (h : IsVinRun s pre v post) :
    vinAt s pre.length = true := by
  obtain ⟨⟨h1, -, -, -, -⟩, h6, h7⟩ := h
  have : (s.drop pre.length).take 17 = v := by
    rw [h1, List.append_assoc, List.drop_left, ← h6, List.take_left]
  simp only [vinAt, this, h6, beq_self_eq_true, Bool.true_and, List.all_eq_true]
  exact h7

/-- C2, as stated, fails: the second of two VINs is a 17-character substring of
the VIN alphabet and is not what is returned, and a 17-character substring
inside a longer run of letters and digits is not returned either. -/
theorem vin_substring_not_always_returned :
    (¬ ∀ (text pre v post : JSString), text = pre ++ v ++ post → v.length = 17 →
      (∀ c ∈ v, isVinChar c = true) → extractChassisNumber text = some (toUpperCase v)) ∧
    extractChassisNumber (lit "MA3ERLF1S00123456 JH4KA7561PC008269") =
      some (lit "MA3ERLF1S00123456") ∧
    extractChassisNumber (lit "MA3ERLF1S00123456X") = none := by
  refine ⟨?_, by decide, by decide⟩
  intro h
  have h1 := h (lit "MA3ERLF1S00123456 JH4KA7561PC008269") (lit "MA3ERLF1S00123456 ")
    (lit "JH4KA7561PC008269") [] (by decide) (by decide) (by decide)
  revert h1
  decide

/-- C2, amended. For every text and every 17-character substring of it made
only of VIN-alphabet characters (A-Z and 0-9 without I, O, Q, in either case)
that is delimited by word boundaries (neither preceded nor followed by a
letter, a digit or an underscore) and is the leftmost such substring,
`extractChassisNumber(text)` equals that substring upper-cased and otherwise
unchanged, whatever characters precede or follow it in the text. -/
theorem vin_returned (text pre v post : JSString) (h : IsVinRun text pre v post)
    (hleft : ∀ pre2 v2 post2, IsVinRun text pre2 v2 post2 → pre.length ≤ pre2.length) :
    extractChassisNumber text = some (toUpperCase v) := by
  obtain ⟨hs, hrun⟩ := runAt_of_vinRun _ _ _ _ h
  have hne : text.isEmpty = false := by
    cases text with
    | nil =>
      have := congrArg List.length hs
      have h17 := h.2.1
      simp at this
      omega
    | cons a t => rfl
  have hclean : matchFirst reVin (cleanText text) = matchFirst reVin text := by
    rw [reVin_eq]
    exact matchFirst_cleanText _ isWordChar_of_ci_vin 17 (by omega) (by omega) text
  have hm : matchFirst reVin text = some v := by
    obtain ⟨mt, he, hcase⟩ := exec_run_before _ isWordChar_of_ci_vin 17 (by omega) (by omega)
      none pre v post hrun
    rw [← hs, ← reVin_eq] at he
    simp only [matchFirst, he, Option.map_some', Option.some.injEq]
    rcases hcase with ⟨-, h2, -⟩ | ⟨d, hd, hrest, hrun2, -, hne2⟩
    · exact h2
    · exfalso
      have hrun3 : IsVinRun text mt.before mt.text mt.after.rest := by
        apply vinRun_of_runAt _ _ _ _ _ hrun2
        rw [hs, hrest, hd]
        simp [List.append_assoc]
      have := hleft _ _ _ hrun3
      have hlen := congrArg List.length hd
      have h17 := hrun3.2.1
      simp only [List.length_append] at hlen
      omega
  simp only [extractChassisNumber, hne, Bool.false_eq_true, if_false, hclean, hm]

theorem vin_returned_witness :
    extractChassisNumber (lit "CHASSIS NO: MA3ERLF1S00123456 DATE 20231015") =
      some (lit "MA3ERLF1S00123456") :=
  vin_returned (lit "CHASSIS NO: MA3ERLF1S00123456 DATE 20231015") (lit "CHASSIS NO: ")
    (lit "MA3ERLF1S00123456") (lit " DATE 20231015")
    ⟨⟨by decide, by decide, by decide, by decide, by decide⟩, by decide, by decide⟩
    (fun pre2 v2 post2 h2 => Nat.le_of_not_lt (fun hlt =>
      absurd (vinAt_of_vinRun _ _ _ _ h2)
        ((by decide : ∀ k < 12, ¬ vinAt (lit "CHASSIS NO: MA3ERLF1S00123456 DATE 20231015") k
            = true) pre2.length hlt)))

end ScanChassis
